import Mathlib

/-!
Shallow embedding of the lepatch backup/restore pipeline (Rust sources under
src/): the snapshot data model (src/metadata.rs), the file registry and
chunk-source resolver (src/reader.rs), the backup pipeline walk, dedup cache
and chunk loop (src/command/backup.rs), and the restore pipeline
(src/command/restore.rs).

Modelling conventions:
- byte buffers are List Nat; machine integers (u32, u64) are Nat - all the
  additions in the source are bounded (chunk sizes fit u32, offsets fit u64),
  so no wrap-around arithmetic occurs on the verified paths;
- BLAKE3 is an opaque parameter blake3c of the pipeline (the code only ever
  compares digests for equality);
- the blob store put operation is modelled by a key-naming parameter putKey
  (a function of the log of previous puts and the payload) together with an
  explicit log of (key, payload) pairs appended by each put; the snapshot
  codec (bincode) is an opaque parameter serialize; the E-suffixed
  definitions (backupE and its components) keep the put, the base-snapshot
  fetch and the chunk-time file reads fallible, and backup is their
  specialisation to fault-free storage and reads;
- the FastCDC chunker is modelled by a parameter cdc returning the list of
  chunk lengths for a given byte stream; the FastCDC contract that chunks
  tile the whole stream is taken as a hypothesis where needed;
- HashMap is modelled as an association list whose insert overwrites the
  existing binding in place (collect over duplicate keys keeps the last one,
  as Rust HashMap does);
- paths are Strings, already relative to the backup root (the strip_prefix
  calls of the source are the identity in this model);
- the destination filesystem of restore is an association list from path to
  node, where a node can be a regular file, a symbolic link or a hard link.
-/

namespace Lepatch

/-- metadata.rs: ChunkEntry - BLAKE3 digest plus opaque blob-store key. -/
structure Chunk where
  hash : Nat
  location : String
deriving Repr, DecidableEq

/-- metadata.rs: FileEntry - path relative to the backup root. -/
structure File where
  path : String
deriving Repr, DecidableEq

/-- metadata.rs: FileChunk row. -/
structure FileChunk where
  chunk_index : Nat
  file_index : Nat
  chunk_offset : Nat
  file_offset : Nat
  length : Nat
deriving Repr, DecidableEq

/-- metadata.rs: FileSymlink - unified symbolic/hard link record. -/
structure FileSymlink where
  path : String
  source : String
  is_hard : Bool
deriving Repr, DecidableEq

/-- metadata.rs: Snapshot - the root manifest. -/
structure Snapshot where
  files : List File
  chunks : List Chunk
  file_chunks : List FileChunk
  file_symlink : List FileSymlink
deriving Repr, DecidableEq

/-- reader.rs: ChunkSource - one contributing file range of a chunk. -/
structure ChunkSource where
  path : String
  offset : Nat
  length : Nat
deriving Repr, DecidableEq

/-- reader.rs: EntryFileRegistry - path, its length, its global offset. -/
structure EntryFileRegistry where
  path : String
  length : Nat
  global_offset : Nat
deriving Repr, DecidableEq

/-- reader.rs FileRegistry::new, with the running global_offset accumulator
made explicit.  The filesystem metadata call that yields each length is
modelled by taking (path, length) pairs as input. -/
def newAux (g : Nat) : List (String × Nat) → List EntryFileRegistry
  | [] => []
  | (p, l) :: rest => ⟨p, l, g⟩ :: newAux (g + l) rest

/-- reader.rs FileRegistry::new starting from global offset 0. -/
def FileRegistry.new (fs : List (String × Nat)) : List EntryFileRegistry :=
  newAux 0 fs

/-- reader.rs FileRegistry::resolve_chunk, the loop body after the
partition_point skip: break once an entry starts at or after global_end,
record the overlap when it is non-empty.  Nat subtraction is saturating,
matching saturating_sub in the source. -/
def resolveLoop (s e : Nat) : List EntryFileRegistry → List ChunkSource
  | [] => []
  | entry :: rest =>
    if e ≤ entry.global_offset then []
    else
      let overlap_start := max s entry.global_offset
      let overlap_end := min e (entry.global_offset + entry.length)
      let overlap_len := overlap_end - overlap_start
      if 0 < overlap_len then
        ⟨entry.path, overlap_start - entry.global_offset, overlap_len⟩ ::
          resolveLoop s e rest
      else resolveLoop s e rest

/-- reader.rs FileRegistry::resolve_chunk.  The partition_point call of the
source is a binary search over the cumulative offsets; on the cumulative
(hence partitioned) registries built by FileRegistry::new it returns the
length of the longest prefix satisfying the predicate, which is what
List.dropWhile removes. -/
def resolve_chunk (entries : List EntryFileRegistry) (global_start : Nat)
    (length : Nat) : List ChunkSource :=
  let global_end := global_start + length
  resolveLoop global_start global_end
    (entries.dropWhile fun entry => entry.global_offset + entry.length ≤ global_start)

/-- One entry handed to the backup pipeline by the directory walker, already
classified the way backup.rs classifies it: a directory (path.is_dir(), which
follows links), a symbolic link, a regular file together with its optional
(device, inode) identity and its content bytes, or an entry whose metadata or
readlink call fails with an I/O error. -/
inductive WalkEntry where
  | dir (path : String)
  | symlink (path : String) (target : String)
  | file (path : String) (fileId : Option (Nat × Nat)) (content : List Nat)
  | ioerror (msg : String)
deriving Repr, DecidableEq

/-- State accumulated by the walk phase of backup.rs (lines 46-111):
files and file_symlink of the snapshot under construction, the hard-link
inode map, and the content path list (paths plus their bytes) fed to the
chunker. -/
structure WalkState where
  files : List File
  file_symlink : List FileSymlink
  inode_map : List ((Nat × Nat) × String)
  contents : List (String × List Nat)
deriving Repr, DecidableEq

/-- backup.rs lines 61-109: processing of a single walked path.  Directories
are skipped; symlinks are recorded and skipped; a regular file whose
(device, inode) was seen before becomes a hard-link record and its content is
skipped; otherwise the file is appended to files and to the content list.
Metadata failures propagate as errors. -/
def walkStep (st : WalkState) : WalkEntry → Except String WalkState
  | .dir _ => .ok st
  | .symlink p t =>
      .ok { st with file_symlink := st.file_symlink ++ [⟨p, t, false⟩] }
  | .ioerror m => .error m
  | .file p fid content =>
    match fid with
    | some id =>
      match (st.inode_map.find? fun kv => kv.1 = id).map Prod.snd with
      | some earlier =>
          .ok { st with file_symlink := st.file_symlink ++ [⟨p, earlier, true⟩] }
      | none =>
          .ok { st with
                  inode_map := st.inode_map ++ [(id, p)],
                  files := st.files ++ [⟨p⟩],
                  contents := st.contents ++ [(p, content)] }
    | none =>
        .ok { st with
                files := st.files ++ [⟨p⟩],
                contents := st.contents ++ [(p, content)] }

/-- backup.rs lines 61-111: the walk phase folded over all walked entries,
with error propagation (the collect over io::Result). -/
def walkFold (st : WalkState) : List WalkEntry → Except String WalkState
  | [] => .ok st
  | entry :: rest =>
    match walkStep st entry with
    | .error m => .error m
    | .ok st2 => walkFold st2 rest

/-- backup.rs: ChunkStatus of the dedup cache. -/
inductive ChunkStatus where
  | available (entry : Chunk)
  | reuse (index : Nat)
deriving Repr, DecidableEq

/-- HashMap lookup, modelled on an association list: first binding wins
(inserts keep keys unique, see cacheInsert). -/
def cacheLookup (m : List (Nat × ChunkStatus)) (h : Nat) : Option ChunkStatus :=
  (m.find? fun kv => kv.1 = h).map Prod.snd

/-- HashMap insert, modelled on an association list: overwrite the existing
binding in place, append otherwise. -/
def cacheInsert (h : Nat) (st : ChunkStatus) :
    List (Nat × ChunkStatus) → List (Nat × ChunkStatus)
  | [] => [(h, st)]
  | kv :: rest => if kv.1 = h then (h, st) :: rest else kv :: cacheInsert h st rest

/-- backup.rs lines 35-39: the dedup cache built from a base snapshot, a
HashMap collect in which a later duplicate hash overwrites an earlier one. -/
def buildCache (cs : List Chunk) : List (Nat × ChunkStatus) :=
  cs.foldl (fun m c => cacheInsert c.hash (.available c) m) []

/-- backup.rs lines 175-180: the forward cursor scan that matches a chunk
source path against snapshot.files, starting at the current index: the while
loop stops at the first index at or after cursor whose path matches, and at
files.length when no entry at or after cursor matches. -/
def advanceCursor (files : List File) (p : String) (cursor : Nat) : Nat :=
  cursor + (files.drop cursor).findIdx fun f => f.path = p

/-- backup.rs lines 168-198: the per-chunk source loop.  Each source advances
the monotonic cursor to the matching file entry (a missing match is the fatal
integrity error of lines 182-187), emits one FileChunk row, and advances
chunk_offset by the source length.  Returns the rows in push order together
with the final cursor. -/
def sourcesToRows (files : List File) (chunk_index : Nat) (cursor : Nat)
    (chunk_offset : Nat) : List ChunkSource → Except String (List FileChunk × Nat)
  | [] => .ok ([], cursor)
  | src :: rest =>
    let c := advanceCursor files src.path cursor
    if c < files.length then
      match sourcesToRows files chunk_index c (chunk_offset + src.length) rest with
      | .error m => .error m
      | .ok (rows, cur) =>
          .ok (⟨chunk_index, c, chunk_offset, src.offset, src.length⟩ :: rows, cur)
    else .error "Chunk source path mismatch: Chunker yielded a file not in snapshot"

/-- State threaded through the chunk loop of backup.rs (lines 115-199):
the chunks and file_chunks of the snapshot under construction, the forward
file cursor, the optional dedup cache, and the log of blob-store puts
performed so far as (key, payload) pairs. -/
structure ChunkLoopState where
  chunks : List Chunk
  file_chunks : List FileChunk
  cursor : Nat
  cache : Option (List (Nat × ChunkStatus))
  puts : List (String × List Nat)
deriving Repr, DecidableEq

/-- backup.rs lines 129-166: computation of chunk_index for one emitted
chunk, with its effects on chunks, the dedup cache and the put log.
A cache hit on Available appends the base entry to chunks and marks the slot
Reuse; a hit on Reuse reuses the recorded index; a miss, or the absence of a
cache, uploads the buffer and appends a fresh ChunkEntry. -/
def dedupStep (putKey : List (String × List Nat) → List Nat → String)
    (cache : Option (List (Nat × ChunkStatus))) (chunks : List Chunk)
    (puts : List (String × List Nat)) (hash : Nat) (buffer : List Nat) :
    Nat × List Chunk × Option (List (Nat × ChunkStatus)) ×
      List (String × List Nat) :=
  let refIndex : Option Nat × List Chunk × Option (List (Nat × ChunkStatus)) :=
    match cache with
    | some m =>
      match cacheLookup m hash with
      | some (.available c) =>
          (some chunks.length, chunks ++ [c],
           some (cacheInsert hash (.reuse chunks.length) m))
      | some (.reuse i) => (some i, chunks, some m)
      | none => (none, chunks, some m)
    | none => (none, chunks, cache)
  match refIndex with
  | (some i, cs, m) => (i, cs, m, puts)
  | (none, cs, m) =>
      let key := putKey puts buffer
      (cs.length, cs ++ [⟨hash, key⟩], m, puts ++ [(key, buffer)])

/-- backup.rs lines 116-198: processing of one emitted chunk.  Hash the
buffer, run the dedup step, then append one FileChunk row per source. -/
def processChunk (blake3c : List Nat → Nat)
    (putKey : List (String × List Nat) → List Nat → String)
    (files : List File) (st : ChunkLoopState) (buffer : List Nat)
    (sources : List ChunkSource) : Except String ChunkLoopState :=
  let d := dedupStep putKey st.cache st.chunks st.puts (blake3c buffer) buffer
  match sourcesToRows files d.1 st.cursor 0 sources with
  | .error m => .error m
  | .ok (rows, cur) =>
      .ok { chunks := d.2.1, file_chunks := st.file_chunks ++ rows,
            cursor := cur, cache := d.2.2.1, puts := d.2.2.2 }

/-- backup.rs lines 116-199: the chunk loop over the chunker output.  Each
item of the chunker is an io::Result; an error item aborts the loop (the
question-mark of line 117). -/
def chunkLoop (blake3c : List Nat → Nat)
    (putKey : List (String × List Nat) → List Nat → String)
    (files : List File) (st : ChunkLoopState) :
    List (Except String (List Nat × List ChunkSource)) →
    Except String ChunkLoopState
  | [] => .ok st
  | item :: rest =>
    match item with
    | .error m => .error m
    | .ok (buffer, sources) =>
      match processChunk blake3c putKey files st buffer sources with
      | .error m => .error m
      | .ok st2 => chunkLoop blake3c putKey files st2 rest

/-- reader.rs ChunkerConfig. -/
structure ChunkerConfig where
  min_size : Nat
  avg_size : Nat
  max_size : Nat
deriving Repr, DecidableEq

/-- reader.rs Chunker (iterator): the chunk at stream position pos with
length l carries the corresponding slice of the global stream as its buffer
and resolve_chunk entries pos l as its sources; chunks are emitted in
global-offset order.  The FastCDC boundary decisions themselves are the lens
input (see the cdc parameter of backup). -/
def mkEmissions (entries : List EntryFileRegistry) (stream : List Nat)
    (pos : Nat) : List Nat → List (Except String (List Nat × List ChunkSource))
  | [] => []
  | l :: rest =>
      .ok ((stream.drop pos).take l, resolve_chunk entries pos l) ::
        mkEmissions entries stream (pos + l) rest

/-- The initial, empty snapshot-building state of backup.rs lines 46-51. -/
def emptyWalkState : WalkState := ⟨[], [], [], []⟩

/-- backup.rs backup: walk (walker errors are discarded by the
filter_map(.ok) of line 58, per-entry metadata errors propagate), build the
registry and the global stream over the content paths, run the chunk loop
with the dedup cache built from the optional base snapshot, then serialize
the snapshot, put it, and return it with the put log and the root key. -/
def backup (blake3c : List Nat → Nat)
    (putKey : List (String × List Nat) → List Nat → String)
    (serialize : Snapshot → List Nat)
    (cdc : ChunkerConfig → List Nat → List Nat) (config : ChunkerConfig)
    (walk : List (Except String WalkEntry)) (base : Option Snapshot) :
    Except String (Snapshot × List (String × List Nat) × String) :=
  let dedup_cache := base.map fun s => buildCache s.chunks
  match walkFold emptyWalkState (walk.filterMap Except.toOption) with
  | .error e => .error e
  | .ok ws =>
    let entries := FileRegistry.new (ws.contents.map fun c => (c.1, c.2.length))
    let stream := (ws.contents.map Prod.snd).flatten
    let lens := cdc config stream
    match chunkLoop blake3c putKey ws.files
        ⟨[], [], 0, dedup_cache, []⟩ (mkEmissions entries stream 0 lens) with
    | .error e => .error e
    | .ok st =>
      let snapshot : Snapshot :=
        ⟨ws.files, st.chunks, st.file_chunks, ws.file_symlink⟩
      let payload := serialize snapshot
      let key := putKey st.puts payload
      .ok (snapshot, st.puts ++ [(key, payload)], key)

/-! Fallibility-complete rendering of backup.  The definitions above model
the blob-store put as the total key allocator putKey and the chunk-time file
reads as infallible, which is faithful on every success path but collapses
the storage-put and read error paths of the source.  The E-suffixed
definitions below keep every fallible operation of the source fallible: the
base-snapshot fetch and decode (backup.rs lines 27-44), the chunk-time reads
underlying the chunker items (reader.rs GlobalStream, surfacing as error
items of the Chunker iterator at reader.rs line 182), and the blob-store
puts (backup.rs lines 153 and 206).  backupE specialises to backup on
fault-free storage and reads (backupE_refines_backup). -/

/-- reader.rs lines 122-145 and 175-193 with the read error path kept: readE
gives the chunk-time read fault (if any) of each source file.  GlobalStream
reads the files underlying each chunk in order; a failing open or read
surfaces as an error item of the Chunker iterator (reader.rs line 182), the
first faulted source winning. -/
def mkEmissionsE (readE : String → Option String)
    (entries : List EntryFileRegistry) (stream : List Nat) (pos : Nat) :
    List Nat → List (Except String (List Nat × List ChunkSource))
  | [] => []
  | l :: rest =>
    let sources := resolve_chunk entries pos l
    (match (sources.filterMap fun s => readE s.path).head? with
     | some m => .error m
     | none => .ok ((stream.drop pos).take l, sources)) ::
      mkEmissionsE readE entries stream (pos + l) rest

/-- backup.rs lines 129-166 with the storage-put error path of line 153
kept: a failing put aborts the step with its error. -/
def dedupStepE
    (putE : List (String × List Nat) → List Nat → Except String String)
    (cache : Option (List (Nat × ChunkStatus))) (chunks : List Chunk)
    (puts : List (String × List Nat)) (hash : Nat) (buffer : List Nat) :
    Except String (Nat × List Chunk × Option (List (Nat × ChunkStatus)) ×
      List (String × List Nat)) :=
  let refIndex : Option Nat × List Chunk × Option (List (Nat × ChunkStatus)) :=
    match cache with
    | some m =>
      match cacheLookup m hash with
      | some (.available c) =>
          (some chunks.length, chunks ++ [c],
           some (cacheInsert hash (.reuse chunks.length) m))
      | some (.reuse i) => (some i, chunks, some m)
      | none => (none, chunks, some m)
    | none => (none, chunks, cache)
  match refIndex with
  | (some i, cs, m) => .ok (i, cs, m, puts)
  | (none, cs, m) =>
    match putE puts buffer with
    | .error e => .error e
    | .ok key => .ok (cs.length, cs ++ [⟨hash, key⟩], m, puts ++ [(key, buffer)])

/-- backup.rs lines 116-198 with the storage-put error path kept. -/
def processChunkE (blake3c : List Nat → Nat)
    (putE : List (String × List Nat) → List Nat → Except String String)
    (files : List File) (st : ChunkLoopState) (buffer : List Nat)
    (sources : List ChunkSource) : Except String ChunkLoopState :=
  match dedupStepE putE st.cache st.chunks st.puts (blake3c buffer) buffer with
  | .error m => .error m
  | .ok d =>
    match sourcesToRows files d.1 st.cursor 0 sources with
    | .error m => .error m
    | .ok (rows, cur) =>
        .ok { chunks := d.2.1, file_chunks := st.file_chunks ++ rows,
              cursor := cur, cache := d.2.2.1, puts := d.2.2.2 }

/-- backup.rs lines 116-199 with the storage-put error path kept. -/
def chunkLoopE (blake3c : List Nat → Nat)
    (putE : List (String × List Nat) → List Nat → Except String String)
    (files : List File) (st : ChunkLoopState) :
    List (Except String (List Nat × List ChunkSource)) →
    Except String ChunkLoopState
  | [] => .ok st
  | item :: rest =>
    match item with
    | .error m => .error m
    | .ok (buffer, sources) =>
      match processChunkE blake3c putE files st buffer sources with
      | .error m => .error m
      | .ok st2 => chunkLoopE blake3c putE files st2 rest

/-- backup.rs backup with every fallible operation of the source kept
fallible: baseE is the result of fetching and decoding the base snapshot
(backup.rs lines 27-44, None when no base key is given), readE the chunk-time
read faults, putE the fallible blob-store put. -/
def backupE (blake3c : List Nat → Nat)
    (putE : List (String × List Nat) → List Nat → Except String String)
    (readE : String → Option String) (serialize : Snapshot → List Nat)
    (cdc : ChunkerConfig → List Nat → List Nat) (config : ChunkerConfig)
    (walk : List (Except String WalkEntry))
    (baseE : Option (Except String Snapshot)) :
    Except String (Snapshot × List (String × List Nat) × String) :=
  let cacheE : Except String (Option (List (Nat × ChunkStatus))) :=
    match baseE with
    | none => .ok none
    | some (.error m) => .error m
    | some (.ok s) => .ok (some (buildCache s.chunks))
  match cacheE with
  | .error m => .error m
  | .ok dedup_cache =>
    match walkFold emptyWalkState (walk.filterMap Except.toOption) with
    | .error e => .error e
    | .ok ws =>
      let entries :=
        FileRegistry.new (ws.contents.map fun c => (c.1, c.2.length))
      let stream := (ws.contents.map Prod.snd).flatten
      let lens := cdc config stream
      match chunkLoopE blake3c putE ws.files
          ⟨[], [], 0, dedup_cache, []⟩
          (mkEmissionsE readE entries stream 0 lens) with
      | .error e => .error e
      | .ok st =>
        let snapshot : Snapshot :=
          ⟨ws.files, st.chunks, st.file_chunks, ws.file_symlink⟩
        let payload := serialize snapshot
        match putE st.puts payload with
        | .error m => .error m
        | .ok key => .ok (snapshot, st.puts ++ [(key, payload)], key)

/-- A node of the restore destination filesystem.  The model can represent
symbolic and hard links, so that what restore does (and does not) create is
visible. -/
inductive FsNode where
  | file (content : List Nat)
  | symlink (target : String)
  | hardlink (target : String)
deriving Repr, DecidableEq

/-- Lookup in the destination filesystem (association list, unique keys). -/
def fsGet (fs : List (String × FsNode)) (p : String) : Option FsNode :=
  (fs.find? fun kv => kv.1 = p).map Prod.snd

/-- Update or create an entry of the destination filesystem. -/
def fsSet (p : String) (n : FsNode) :
    List (String × FsNode) → List (String × FsNode)
  | [] => [(p, n)]
  | kv :: rest => if kv.1 = p then (p, n) :: rest else kv :: fsSet p n rest

/-- restore.rs lines 58-62: OpenOptions write+create without truncate -
the existing content is kept, a missing file starts empty. -/
def openCreate (fs : List (String × FsNode)) (p : String) : List Nat :=
  match fsGet fs p with
  | some (.file c) => c
  | _ => []

/-- Positional write with POSIX semantics: writing data at pos zero-fills any
gap between the current end of file and pos. -/
def writeAt (content : List Nat) (pos : Nat) (data : List Nat) : List Nat :=
  content.take pos ++ List.replicate (pos - content.length) 0 ++ data ++
    content.drop (pos + data.length)

/-- restore.rs lines 30-80: processing of one FileChunk row.  Fetch the file
and chunk metadata (out-of-range indices are InvalidData errors), open the
destination create-if-missing without truncation, seek the destination to
file_chunk.file_index (sic - the source seeks to the index field, not to
file_offset; see restore.rs line 64), read length bytes of the chunk starting
at chunk_offset, and write them through the length-capped SliceAsyncWriter. -/
def restoreStep (storageGet : String → Option (List Nat)) (snapshot : Snapshot)
    (fs : List (String × FsNode)) (fc : FileChunk) :
    Except String (List (String × FsNode)) :=
  match snapshot.files.get? fc.file_index with
  | none => .error "file metadata not found for given file chunk"
  | some file =>
    match snapshot.chunks.get? fc.chunk_index with
    | none => .error "chunk metadata not found for given file chunk"
    | some chunk =>
      match storageGet chunk.location with
      | none => .error "Invalid blob key"
      | some chunkBytes =>
        let content := openCreate fs file.path
        let data := (chunkBytes.drop fc.chunk_offset).take fc.length
        .ok (fsSet file.path (.file (writeAt content fc.file_index data)) fs)

/-- restore.rs lines 30-80: the loop over file_chunks in stored order. -/
def restoreLoop (storageGet : String → Option (List Nat)) (snapshot : Snapshot)
    (fs : List (String × FsNode)) :
    List FileChunk → Except String (List (String × FsNode))
  | [] => .ok fs
  | fc :: rest =>
    match restoreStep storageGet snapshot fs fc with
    | .error m => .error m
    | .ok fs2 => restoreLoop storageGet snapshot fs2 rest

/-- restore.rs restore: deserialize the snapshot (modelled as receiving the
snapshot value), copy every FileChunk row, and return.  The function ends
after the row loop: no file_symlink entry is ever materialized (restore.rs
lines 30-82). -/
def restore (storageGet : String → Option (List Nat)) (snapshot : Snapshot)
    (fs : List (String × FsNode)) : Except String (List (String × FsNode)) :=
  restoreLoop storageGet snapshot fs snapshot.file_chunks

/-- A blob store reader built from the put log of a backup run. -/
def storeOf (puts : List (String × List Nat)) : String → Option (List Nat) :=
  fun k => (puts.find? fun kv => kv.1 = k).map Prod.snd

/-! Concrete instantiations of the opaque pipeline parameters, used to
evaluate the pipeline on concrete inputs. -/

/-- A concrete hash function (the dedup logic only compares digests). -/
def hashConst : List Nat → Nat := fun _ => 0

/-- A concrete key allocator: the n-th put of a run gets key "k" ++ n. -/
def keyCount : List (String × List Nat) → List Nat → String :=
  fun ps _ => "k" ++ toString ps.length

/-- A concrete snapshot codec stand-in. -/
def serNil : Snapshot → List Nat := fun _ => [9]

/-- A concrete hash function separating distinct byte strings of the test
trees. -/
def hashSum : List Nat → Nat := fun b => b.sum

/-- A concrete chunker: the whole stream as one chunk (legal FastCDC output
for a stream shorter than max_size). -/
def cdcOne : ChunkerConfig → List Nat → List Nat :=
  fun _ s => if s.length = 0 then [] else [s.length]

/-- A concrete chunker splitting the stream into one-byte chunks. -/
def cdcBytes : ChunkerConfig → List Nat → List Nat :=
  fun _ s => List.replicate s.length 1

/-- The default chunker parameters of bin/mod.rs. -/
def cfg0 : ChunkerConfig := ⟨8 * 1024, 16 * 1024, 64 * 1024⟩

/-- A walked tree with two regular one-byte files a = 0x41 and b = 0x42. -/
def walkAB : List (Except String WalkEntry) :=
  [.ok (.file "a" none [65]), .ok (.file "b" none [66])]

/-- A walked tree with one regular file a whose two bytes are equal, so that
a byte-level chunker emits two chunks with identical content. -/
def walkDup : List (Except String WalkEntry) :=
  [.ok (.file "a" none [7, 7])]

/-- A walked tree with a hard-link pair: two regular files with the same
(device, inode) identity. -/
def walkHL : List (Except String WalkEntry) :=
  [.ok (.file "a" (some (1, 2)) [65]), .ok (.file "b" (some (1, 2)) [65])]

/-- Invariant of the walk phase: every inode-map binding and every hard-link
record points at a path already appended to files, and the content pipeline
carries exactly the paths of files. -/
def WalkInv (st : WalkState) : Prop :=
  (∀ kv ∈ st.inode_map, kv.2 ∈ st.files.map File.path) ∧
  (∀ sym ∈ st.file_symlink, sym.is_hard = true →
      sym.source ∈ st.files.map File.path) ∧
  st.contents.map Prod.fst = st.files.map File.path

/-- Specification-side description of one resolved source (spec section
4.5), written from the words of the spec: a file whose global range overlaps
the queried range contributes the overlap, as its local offset within the
file and the overlap length; a file with no overlap (in particular a
zero-length file) contributes nothing. -/
def resolveSpec (s e : Nat) (entry : EntryFileRegistry) : Option ChunkSource :=
  if max s entry.global_offset < min e (entry.global_offset + entry.length) then
    some ⟨entry.path, max s entry.global_offset - entry.global_offset,
          min e (entry.global_offset + entry.length) - max s entry.global_offset⟩
  else none

/-- The registry entries are cumulative from g: each entry starts where the
previous one ends.  FileRegistry.new always produces cumulative entries. -/
def Cumulative : Nat → List EntryFileRegistry → Prop
  | _, [] => True
  | g, entry :: rest =>
      entry.global_offset = g ∧ Cumulative (g + entry.length) rest

/-- Projection of a FileChunk row to (file_index, (file_offset, length)),
the fields the partition law speaks about (chunk_index and chunk_offset
depend on the dedup cache and are irrelevant to the per-file tiling). -/
def sel (r : FileChunk) : Nat × Nat × Nat :=
  (r.file_index, r.file_offset, r.length)

/-- The rows one chunk [s, e) contributes when the source loop scans the
registry suffix whose first entry has file index base, with running
chunk_offset co: one row per overlapping entry, carrying the overlap as
(file_offset, length). -/
def chunkRows (ci s e : Nat) : Nat → Nat → List EntryFileRegistry → List FileChunk
  | _, _, [] => []
  | base, co, entry :: rest =>
    match resolveSpec s e entry with
    | some src =>
        ⟨ci, base, co, src.offset, src.length⟩ ::
          chunkRows ci s e (base + 1) (co + src.length) rest
    | none => chunkRows ci s e (base + 1) co rest

/-- The (offset, length) pairs tile the range from p up to q: consecutive,
positive, no gaps, no overlaps. -/
def covers (p : Nat) : List (Nat × Nat) → Nat → Prop
  | [], q => p = q
  | (o, l) :: rest, q => o = p ∧ 0 < l ∧ covers (p + l) rest q

/-- Overlap of the query [s, e) with a file occupying [g, g+L) of the global
stream, as (local offset, length) within the file. -/
def clip (s e g L : Nat) : Option (Nat × Nat) :=
  if max s g < min e (g + L) then
    some (max s g - g, min e (g + L) - max s g)
  else none

/-- The per-file rows contributed by the chunk-length sequence lens starting
at global position pos, for a file at [g, g+L). -/
def clipRows (g L : Nat) : Nat → List Nat → List (Nat × Nat)
  | _, [] => []
  | pos, l :: rest =>
      (clip pos (pos + l) g L).toList ++ clipRows g L (pos + l) rest

/-- All selected rows of the chunk-length sequence lens from pos, over the
whole registry. -/
def rowsSel (ents : List EntryFileRegistry) : Nat → List Nat → List (Nat × Nat × Nat)
  | _, [] => []
  | pos, l :: rest =>
      (chunkRows 0 pos (pos + l) 0 0 ents).map sel ++ rowsSel ents (pos + l) rest

/-- The putKey-independent part of a chunk-loop state: rows, cursor, cache,
and the chunk hash sequence. -/
def loopDet (st : ChunkLoopState) :
    List FileChunk × Nat × Option (List (Nat × ChunkStatus)) × List Nat :=
  (st.file_chunks, st.cursor, st.cache, st.chunks.map Chunk.hash)

/-- The storage-allocation-independent part of a backup result: files, the
chunk hash sequence, the rows, and the link records. -/
def backupDet (r : Snapshot × List (String × List Nat) × String) :
    List File × List Nat × List FileChunk × List FileSymlink :=
  (r.1.files, r.1.chunks.map Chunk.hash, r.1.file_chunks, r.1.file_symlink)

/-- The dedup cache once the new-run prefix ending at absolute chunk index
off has been processed: every processed hash slot is Reused at its new
index. -/
def reuseCache (off : Nat) : List Chunk → List (Nat × ChunkStatus)
  | [] => []
  | c :: rest => (c.hash, ChunkStatus.reuse off) :: reuseCache (off + 1) rest

/-- The dedup-cache image of a list of base chunk entries that are still
Available. -/
def availCache : List Chunk → List (Nat × ChunkStatus)
  | [] => []
  | c :: rest => (c.hash, ChunkStatus.available c) :: availCache rest

/-! ### Theorems -/

theorem advanceCursor_le (files : List File) (p : String) (cursor : Nat) :
    cursor ≤ advanceCursor files p cursor :=
  Nat.le_add_right _ _

/-- The source loop of backup.rs lines 168-198 never moves the cursor
backwards: all emitted rows carry file indices between the incoming cursor
and the outgoing cursor, in non-decreasing order. -/
theorem sourcesToRows_bounds (files : List File) (ci : Nat) :
    ∀ (srcs : List ChunkSource) (cursor co : Nat) (rows : List FileChunk)
      (cur : Nat),
      sourcesToRows files ci cursor co srcs = Except.ok (rows, cur) →
      cursor ≤ cur ∧
        (∀ r ∈ rows, cursor ≤ r.file_index ∧ r.file_index ≤ cur) ∧
        List.Pairwise (· ≤ ·) (rows.map FileChunk.file_index) := by
  intro srcs
  induction srcs with
  | nil =>
    intro cursor co rows cur h
    simp only [sourcesToRows, Except.ok.injEq, Prod.mk.injEq] at h
    obtain ⟨rfl, rfl⟩ := h
    exact ⟨le_rfl, by simp, by simp⟩
  | cons src rest ih =>
    intro cursor co rows cur h
    simp only [sourcesToRows] at h
    split at h
    · split at h
      · exact absurd h (by simp)
      · next rows' cur' heq =>
        simp only [Except.ok.injEq, Prod.mk.injEq] at h
        obtain ⟨rfl, rfl⟩ := h
        obtain ⟨h1, h2, h3⟩ := ih _ _ _ _ heq
        have hc := advanceCursor_le files src.path cursor
        refine ⟨le_trans hc h1, ?_, ?_⟩
        · intro r hr
          rcases List.mem_cons.1 hr with rfl | hr
          · exact ⟨hc, h1⟩
          · exact ⟨le_trans hc (h2 r hr).1, (h2 r hr).2⟩
        · simp only [List.map_cons, List.pairwise_cons]
          refine ⟨?_, h3⟩
          intro x hx
          obtain ⟨r, hr, rfl⟩ := List.mem_map.1 hx
          exact (h2 r hr).1
    · exact absurd h (by simp)

/-- Elimination form of processChunk: a successful step appends the rows of
the source loop, started at the incoming cursor, and installs the dedup-step
results. -/
theorem processChunk_ok {blake3c : List Nat → Nat}
    {putKey : List (String × List Nat) → List Nat → String}
    {files : List File} {st : ChunkLoopState} {buffer : List Nat}
    {sources : List ChunkSource} {st2 : ChunkLoopState}
    (h : processChunk blake3c putKey files st buffer sources = Except.ok st2) :
    ∃ rows cur,
      sourcesToRows files
          (dedupStep putKey st.cache st.chunks st.puts (blake3c buffer) buffer).1
          st.cursor 0 sources = Except.ok (rows, cur) ∧
      st2 = { chunks := (dedupStep putKey st.cache st.chunks st.puts
                  (blake3c buffer) buffer).2.1,
              file_chunks := st.file_chunks ++ rows, cursor := cur,
              cache := (dedupStep putKey st.cache st.chunks st.puts
                  (blake3c buffer) buffer).2.2.1,
              puts := (dedupStep putKey st.cache st.chunks st.puts
                  (blake3c buffer) buffer).2.2.2 } := by
  unfold processChunk at h
  dsimp only at h
  split at h
  · exact absurd h (by simp)
  · next rows cur heq =>
    cases h
    exact ⟨rows, cur, heq, rfl⟩

/-- The chunk loop preserves monotonicity of the row file indices: the cursor
only moves forward, so rows appended later never reference an earlier file. -/
theorem chunkLoop_mono (blake3c : List Nat → Nat)
    (putKey : List (String × List Nat) → List Nat → String)
    (files : List File) :
    ∀ (es : List (Except String (List Nat × List ChunkSource)))
      (st st' : ChunkLoopState),
      chunkLoop blake3c putKey files st es = Except.ok st' →
      (∀ r ∈ st.file_chunks, r.file_index ≤ st.cursor) →
      List.Pairwise (· ≤ ·) (st.file_chunks.map FileChunk.file_index) →
      (∀ r ∈ st'.file_chunks, r.file_index ≤ st'.cursor) ∧
        List.Pairwise (· ≤ ·) (st'.file_chunks.map FileChunk.file_index) := by
  intro es
  induction es with
  | nil =>
    intro st st' h hb hp
    simp only [chunkLoop, Except.ok.injEq] at h
    subst h
    exact ⟨hb, hp⟩
  | cons item rest ih =>
    intro st st' h hb hp
    simp only [chunkLoop] at h
    split at h
    · exact absurd h (by simp)
    · split at h
      · exact absurd h (by simp)
      · next st2 heq =>
        obtain ⟨rows, cur, hrows, rfl⟩ := processChunk_ok heq
        obtain ⟨h1, h2, h3⟩ := sourcesToRows_bounds files _ _ _ _ _ _ hrows
        refine ih _ _ h ?_ ?_
        · intro r hr
          rcases List.mem_append.1 hr with hr | hr
          · exact le_trans (hb r hr) h1
          · exact (h2 r hr).2
        · rw [List.map_append, List.pairwise_append]
          refine ⟨hp, h3, ?_⟩
          intro a ha b hbm
          obtain ⟨ra, hra, rfl⟩ := List.mem_map.1 ha
          obtain ⟨rb, hrb, rfl⟩ := List.mem_map.1 hbm
          exact le_trans (hb ra hra) (h2 rb hrb).1

/-- C10: in every snapshot produced by backup, the file_index fields of the
file_chunks rows are non-decreasing in stored order: the pipeline resolves
chunk sources with a forward-only cursor over files, so a later row never
references an earlier file than any previous row. -/
theorem backup_file_index_monotone (blake3c : List Nat → Nat)
    (putKey : List (String × List Nat) → List Nat → String)
    (serialize : Snapshot → List Nat) (cdc : ChunkerConfig → List Nat → List Nat)
    (config : ChunkerConfig) (walk : List (Except String WalkEntry))
    (base : Option Snapshot) (snap : Snapshot)
    (log : List (String × List Nat)) (key : String)
    (h : backup blake3c putKey serialize cdc config walk base =
      Except.ok (snap, log, key)) :
    List.Pairwise (· ≤ ·) (snap.file_chunks.map FileChunk.file_index) := by
  unfold backup at h
  split at h
  · exact absurd h (by simp)
  · dsimp only at h
    split at h
    · exact absurd h (by simp)
    · next st heq =>
      simp only [Except.ok.injEq, Prod.mk.injEq] at h
      obtain ⟨hsnap, -, -⟩ := h
      subst hsnap
      exact (chunkLoop_mono _ _ _ _ _ _ heq (by simp) (by simp)).2

/-- C1: restore after backup does NOT reproduce the tree byte-for-byte.
Backing up the two-file tree a = 0x41, b = 0x42 and restoring the returned
snapshot from the blob log succeeds, but the restored file b has content
[0, 0x42] instead of [0x42]: the restore row for b seeks the destination to
its file_index (1) instead of its file_offset (0), as restore.rs line 64
does.  (Symlinks and hardlinks are additionally never recreated, see the C3
theorem.)  This refutes the round-trip claim on the code as written. -/
theorem restore_backup_roundtrip_fails :
    (backup hashConst keyCount serNil cdcOne cfg0 walkAB none).bind
        (fun r => restore (storeOf r.2.1) r.1 []) =
      .ok [("a", FsNode.file [65]), ("b", FsNode.file [0, 66])] ∧
    [(("a" : String), FsNode.file [65]), ("b", FsNode.file [0, 66])] ≠
      [("a", FsNode.file [65]), ("b", FsNode.file [66])] := by
  constructor
  · rfl
  · decide

/-- C2: for a FileChunk row the destination write position is the row's
file_index, not its file_offset.  With files = [a, b], one single-byte chunk
0x58 at key "q" and the single row (chunk_index 0, file_index 1,
chunk_offset 0, file_offset 0, length 1), the copied byte lands at byte range
beginning at 1 (= file_index) of b, producing [0, 0x58], instead of the range
beginning at 0 (= file_offset) claimed by the spec, which would produce
[0x58].  (The create-if-missing-without-truncation half of the claim does
hold: openCreate keeps existing content.) -/
theorem restore_seeks_file_index_not_file_offset :
    restore (fun k => if k = "q" then some [88] else none)
        ⟨[⟨"a"⟩, ⟨"b"⟩], [⟨0, "q"⟩], [⟨0, 1, 0, 0, 1⟩], []⟩ [] =
      .ok [("b", FsNode.file [0, 88])] ∧
    writeAt [] 1 [88] ≠ writeAt [] 0 [88] := by
  constructor
  · rfl
  · decide

/-- C3: restore returns success without materializing any file_symlinks
entry.  For a snapshot whose only content is a symbolic-link record, restore
reports ok yet creates nothing at the link path: the restore pipeline of
restore.rs ends after the FileChunk copy loop and has no symlink or hardlink
materialization step at all. -/
theorem restore_never_materializes_symlinks :
    restore (fun _ => none) ⟨[], [], [], [⟨"l", "t", false⟩]⟩ [] = .ok [] ∧
    (⟨[], [], [], [⟨"l", "t", false⟩]⟩ : Snapshot).file_symlink ≠ [] ∧
    fsGet [] "l" = none := by
  exact ⟨rfl, by decide, rfl⟩

/-- C4 counterexample: re-backing up an unchanged tree on top of its own
snapshot does not preserve chunk locations index by index.  The tree is one
file with bytes [7, 7]; a one-byte chunker emits two chunks with identical
content, so the base snapshot holds two chunk entries with equal hash and
locations "k0" and "k1".  The incremental run collapses both onto the single
dedup-cache slot (whose Available entry is the later duplicate, since the
HashMap collect lets later keys overwrite earlier ones), so the new snapshot
has chunks = [(hash, "k1")]: its entry 0 differs from the base entry 0
(location "k0"). -/
theorem backup_rebase_location_mismatch :
    ((backup hashConst keyCount serNil cdcBytes cfg0 walkDup none).bind
        fun r => backup hashConst keyCount serNil cdcBytes cfg0 walkDup
          (some r.1)) =
      .ok (⟨[⟨"a"⟩], [⟨0, "k1"⟩],
            [⟨0, 0, 0, 0, 1⟩, ⟨0, 0, 0, 1, 1⟩], []⟩,
           [("k0", [9])], "k0") ∧
    (backup hashConst keyCount serNil cdcBytes cfg0 walkDup none =
      .ok (⟨[⟨"a"⟩], [⟨0, "k0"⟩, ⟨0, "k1"⟩],
             [⟨0, 0, 0, 0, 1⟩, ⟨1, 0, 0, 1, 1⟩], []⟩,
           [("k0", [7]), ("k1", [7]), ("k2", [9])], "k2")) ∧
    (Chunk.mk 0 "k1") ≠ (Chunk.mk 0 "k0") := by
  exact ⟨rfl, rfl, by decide⟩

/-- Witness for the C10 theorem at a concrete backup run (two one-byte
files sharing one chunk). -/
theorem backup_file_index_monotone_witness :
    List.Pairwise (· ≤ ·)
      (List.map FileChunk.file_index
        ([⟨0, 0, 0, 0, 1⟩, ⟨0, 1, 1, 0, 1⟩] : List FileChunk)) :=
  backup_file_index_monotone hashConst keyCount serNil cdcOne cfg0 walkAB none
    ⟨[⟨"a"⟩, ⟨"b"⟩], [⟨0, "k0"⟩], [⟨0, 0, 0, 0, 1⟩, ⟨0, 1, 1, 0, 1⟩], []⟩
    [("k0", [65, 66]), ("k1", [9])] "k1" rfl

/-- Each walk step preserves the walk invariant. -/
theorem walkStep_inv {st : WalkState} {e : WalkEntry} {st2 : WalkState}
    (h : walkStep st e = Except.ok st2) (hinv : WalkInv st) : WalkInv st2 := by
  obtain ⟨h1, h2, h3⟩ := hinv
  cases e with
  | dir p =>
    simp only [walkStep, Except.ok.injEq] at h
    subst h
    exact ⟨h1, h2, h3⟩
  | symlink p t =>
    simp only [walkStep, Except.ok.injEq] at h
    subst h
    refine ⟨h1, ?_, h3⟩
    intro sym hs hh
    rcases List.mem_append.1 hs with hs | hs
    · exact h2 sym hs hh
    · rw [List.mem_singleton] at hs
      subst hs
      exact absurd hh (by simp)
  | ioerror m => simp [walkStep] at h
  | file p fid content =>
    cases fid with
    | none =>
      simp only [walkStep, Except.ok.injEq] at h
      subst h
      refine ⟨?_, ?_, ?_⟩
      · intro kv hkv
        simp only [List.map_append]
        exact List.mem_append_left _ (h1 kv hkv)
      · intro sym hs hh
        simp only [List.map_append]
        exact List.mem_append_left _ (h2 sym hs hh)
      · simp only [List.map_append, h3]
        simp
    | some id =>
      simp only [walkStep] at h
      split at h
      · next earlier hfind =>
        simp only [Except.ok.injEq] at h
        subst h
        refine ⟨h1, ?_, h3⟩
        intro sym hs hh
        rcases List.mem_append.1 hs with hs | hs
        · exact h2 sym hs hh
        · rw [List.mem_singleton] at hs
          subst hs
          obtain ⟨kv, hkv, hv⟩ := Option.map_eq_some'.1 hfind
          exact hv ▸ h1 kv (List.mem_of_find?_eq_some hkv)
      · next hfind =>
        simp only [Except.ok.injEq] at h
        subst h
        refine ⟨?_, ?_, ?_⟩
        · intro kv hkv
          simp only [List.map_append]
          rcases List.mem_append.1 hkv with hkv | hkv
          · exact List.mem_append_left _ (h1 kv hkv)
          · rw [List.mem_singleton] at hkv
            subst hkv
            exact List.mem_append_right _ (by simp)
        · intro sym hs hh
          simp only [List.map_append]
          exact List.mem_append_left _ (h2 sym hs hh)
        · simp only [List.map_append, h3]
          simp

/-- The walk fold preserves the walk invariant. -/
theorem walkFold_inv : ∀ (es : List WalkEntry) {st st2 : WalkState},
    walkFold st es = Except.ok st2 → WalkInv st → WalkInv st2 := by
  intro es
  induction es with
  | nil =>
    intro st st2 h hi
    simp only [walkFold, Except.ok.injEq] at h
    subst h
    exact hi
  | cons e rest ih =>
    intro st st2 h hi
    simp only [walkFold] at h
    split at h
    · exact absurd h (by simp)
    · next stm heq => exact ih h (walkStep_inv heq hi)

/-- C8: in every snapshot produced by backup, every FileSymlink with
is_hard = true targets the path of a FileEntry of files; and the content
pipeline consists exactly of the paths of files, so a hardlinked path
contributes no content of its own.  The theorem quantifies over every walk
(in particular over every prefix of a given walk), which captures that the
target file entry was appended before the hard-link record was. -/
theorem backup_hardlink_target_earlier (blake3c : List Nat → Nat)
    (putKey : List (String × List Nat) → List Nat → String)
    (serialize : Snapshot → List Nat) (cdc : ChunkerConfig → List Nat → List Nat)
    (config : ChunkerConfig) (walk : List (Except String WalkEntry))
    (base : Option Snapshot) (snap : Snapshot)
    (log : List (String × List Nat)) (key : String)
    (h : backup blake3c putKey serialize cdc config walk base =
      Except.ok (snap, log, key)) :
    (∀ sym ∈ snap.file_symlink, sym.is_hard = true →
        sym.source ∈ snap.files.map File.path) ∧
    (∀ ws, walkFold emptyWalkState (walk.filterMap Except.toOption) =
        Except.ok ws →
      ws.contents.map Prod.fst = ws.files.map File.path) := by
  constructor
  · unfold backup at h
    split at h
    · exact absurd h (by simp)
    · next ws hw =>
      dsimp only at h
      split at h
      · exact absurd h (by simp)
      · next st heq =>
        simp only [Except.ok.injEq, Prod.mk.injEq] at h
        obtain ⟨hsnap, -, -⟩ := h
        subst hsnap
        exact (walkFold_inv _ hw (by simp [WalkInv, emptyWalkState])).2.1
  · intro ws hw
    exact (walkFold_inv _ hw (by simp [WalkInv, emptyWalkState])).2.2

/-- Witness for the C8 theorem: the hard-link pair tree, whose snapshot has
files = [a] and file_symlink = [(b, a, hard)]. -/
theorem backup_hardlink_target_earlier_witness :
    (∀ sym ∈ ([⟨"b", "a", true⟩] : List FileSymlink), sym.is_hard = true →
        sym.source ∈ List.map File.path [⟨"a"⟩]) ∧
    (∀ ws, walkFold emptyWalkState (walkHL.filterMap Except.toOption) =
        Except.ok ws →
      ws.contents.map Prod.fst = ws.files.map File.path) :=
  backup_hardlink_target_earlier hashConst keyCount serNil cdcOne cfg0 walkHL
    none ⟨[⟨"a"⟩], [⟨0, "k0"⟩], [⟨0, 0, 0, 0, 1⟩], [⟨"b", "a", true⟩]⟩
    [("k0", [65]), ("k1", [9])] "k1" rfl

/-- filterMap with a constantly-none function yields the empty list. -/
theorem filterMap_const_none {α β : Type} (l : List α) :
    l.filterMap (fun _ => (none : Option β)) = [] := by
  induction l with
  | nil => rfl
  | cons a l ih => simp [List.filterMap_cons, ih]

/-- With fault-free reads the fallibility-complete chunker emissions are the
fault-free ones. -/
theorem mkEmissionsE_readOk (entries : List EntryFileRegistry)
    (stream : List Nat) : ∀ (lens : List Nat) (pos : Nat),
    mkEmissionsE (fun _ => none) entries stream pos lens =
      mkEmissions entries stream pos lens := by
  intro lens
  induction lens with
  | nil => intro pos; rfl
  | cons l rest ih =>
    intro pos
    simp [mkEmissionsE, mkEmissions, filterMap_const_none, ih]

/-- With a never-failing put the fallibility-complete dedup step succeeds
with the fault-free result. -/
theorem dedupStepE_refines
    (putKey : List (String × List Nat) → List Nat → String)
    (cache : Option (List (Nat × ChunkStatus))) (chunks : List Chunk)
    (puts : List (String × List Nat)) (hash : Nat) (buffer : List Nat) :
    dedupStepE (fun ps b => .ok (putKey ps b)) cache chunks puts hash buffer =
      .ok (dedupStep putKey cache chunks puts hash buffer) := by
  unfold dedupStepE dedupStep
  cases cache with
  | none => rfl
  | some m =>
    cases hl : cacheLookup m hash with
    | none => simp [hl]
    | some s => cases s <;> simp [hl]

/-- With a never-failing put the fallibility-complete chunk processing is
the fault-free one. -/
theorem processChunkE_refines (blake3c : List Nat → Nat)
    (putKey : List (String × List Nat) → List Nat → String)
    (files : List File) (st : ChunkLoopState) (buffer : List Nat)
    (sources : List ChunkSource) :
    processChunkE blake3c (fun ps b => .ok (putKey ps b)) files st buffer
        sources = processChunk blake3c putKey files st buffer sources := by
  unfold processChunkE processChunk
  rw [dedupStepE_refines]

/-- With a never-failing put the fallibility-complete chunk loop is the
fault-free one. -/
theorem chunkLoopE_refines (blake3c : List Nat → Nat)
    (putKey : List (String × List Nat) → List Nat → String)
    (files : List File) :
    ∀ (es : List (Except String (List Nat × List ChunkSource)))
      (st : ChunkLoopState),
    chunkLoopE blake3c (fun ps b => .ok (putKey ps b)) files st es =
      chunkLoop blake3c putKey files st es := by
  intro es
  induction es with
  | nil => intro st; rfl
  | cons item rest ih =>
    intro st
    cases item with
    | error m => rfl
    | ok pr =>
      obtain ⟨buffer, sources⟩ := pr
      simp only [chunkLoopE, chunkLoop, processChunkE_refines]
      cases hp : processChunk blake3c putKey files st buffer sources with
      | error m => simp [hp]
      | ok st2 =>
        simp only [hp]
        exact ih st2

/-- backupE specialises to backup under fault-free storage, fault-free
chunk-time reads and a successfully fetched (or absent) base snapshot:
backup is the success-path rendering of the same source function. -/
theorem backupE_refines_backup (blake3c : List Nat → Nat)
    (putKey : List (String × List Nat) → List Nat → String)
    (serialize : Snapshot → List Nat)
    (cdc : ChunkerConfig → List Nat → List Nat) (config : ChunkerConfig)
    (walk : List (Except String WalkEntry)) (base : Option Snapshot) :
    backupE blake3c (fun ps b => .ok (putKey ps b)) (fun _ => none) serialize
        cdc config walk (base.map Except.ok) =
      backup blake3c putKey serialize cdc config walk base := by
  unfold backupE backup
  cases base <;>
    cases hw : walkFold emptyWalkState (walk.filterMap Except.toOption) <;>
      simp only [Option.map, hw, mkEmissionsE_readOk, chunkLoopE_refines]

/-- FileRegistry.new builds cumulative entries. -/
theorem newAux_cumulative : ∀ (fs : List (String × Nat)) (g : Nat),
    Cumulative g (newAux g fs) := by
  intro fs
  induction fs with
  | nil => intro g; trivial
  | cons pl rest ih =>
    intro g
    obtain ⟨p, l⟩ := pl
    exact ⟨rfl, ih (g + l)⟩

/-- Entries of a cumulative list start at or after the base offset. -/
theorem cumulative_ge : ∀ (es : List EntryFileRegistry) (g : Nat),
    Cumulative g es → ∀ entry ∈ es, g ≤ entry.global_offset := by
  intro es
  induction es with
  | nil => intro g _ entry h; cases h
  | cons e0 rest ih =>
    intro g hc entry h
    obtain ⟨hg, hrest⟩ := hc
    rcases List.mem_cons.1 h with rfl | h
    · omega
    · exact le_trans (by omega) (ih (g + e0.length) hrest entry h)

/-- On a cumulative suffix, the resolve loop computes exactly the
specification-side filterMap: the break at the first entry starting past
global_end loses nothing because every later entry starts even further. -/
theorem resolveLoop_eq_filterMap (s e : Nat) :
    ∀ (es : List EntryFileRegistry) (g : Nat), Cumulative g es →
      resolveLoop s e es = es.filterMap (resolveSpec s e) := by
  intro es
  induction es with
  | nil => intro g _; rfl
  | cons entry rest ih =>
    intro g hc
    obtain ⟨hg, hrest⟩ := hc
    have heq := ih (g + entry.length) hrest
    rw [List.filterMap_cons]
    by_cases hbreak : e ≤ entry.global_offset
    · have hnone : resolveSpec s e entry = none := by
        unfold resolveSpec
        rw [if_neg]
        omega
      have hrestnil : rest.filterMap (resolveSpec s e) = [] := by
        rw [List.filterMap_eq_nil_iff]
        intro a ha
        have hge := cumulative_ge rest (g + entry.length) hrest a ha
        unfold resolveSpec
        rw [if_neg]
        omega
      rw [hnone, hrestnil]
      simp only [resolveLoop]
      rw [if_pos hbreak]
    · by_cases hol : max s entry.global_offset <
          min e (entry.global_offset + entry.length)
      · have hsome : resolveSpec s e entry = some ⟨entry.path,
            max s entry.global_offset - entry.global_offset,
            min e (entry.global_offset + entry.length) -
              max s entry.global_offset⟩ := by
          unfold resolveSpec
          rw [if_pos hol]
        rw [hsome]
        simp only [resolveLoop]
        rw [if_neg hbreak]
        rw [if_pos (by omega), heq]
      · have hnone : resolveSpec s e entry = none := by
          unfold resolveSpec
          rw [if_neg hol]
        rw [hnone]
        simp only [resolveLoop]
        rw [if_neg hbreak]
        rw [if_neg (by omega), heq]

/-- Entries whose range ends at or before the query start contribute nothing,
so the partition_point skip of resolve_chunk is sound. -/
theorem dropWhile_filterMap (s e : Nat) :
    ∀ (es : List EntryFileRegistry),
      es.filterMap (resolveSpec s e) =
        (es.dropWhile fun entry =>
          entry.global_offset + entry.length ≤ s).filterMap (resolveSpec s e) := by
  intro es
  induction es with
  | nil => rfl
  | cons entry rest ih =>
    rw [List.dropWhile_cons]
    by_cases hend : entry.global_offset + entry.length ≤ s
    · rw [if_pos (by simpa using hend), List.filterMap_cons]
      have hnone : resolveSpec s e entry = none := by
        unfold resolveSpec
        rw [if_neg]
        omega
      rw [hnone, ih]
    · rw [if_neg (by simpa using hend)]

/-- A dropWhile suffix of a cumulative list is cumulative from some base. -/
theorem cumulative_dropWhile (q : EntryFileRegistry → Bool) :
    ∀ (es : List EntryFileRegistry) (g : Nat), Cumulative g es →
      ∃ g2, Cumulative g2 (es.dropWhile q) := by
  intro es
  induction es with
  | nil => intro g _; exact ⟨0, trivial⟩
  | cons entry rest ih =>
    intro g hc
    obtain ⟨hg, hrest⟩ := hc
    rw [List.dropWhile_cons]
    by_cases hq : q entry
    · rw [if_pos hq]
      exact ih (g + entry.length) hrest
    · rw [if_neg hq]
      exact ⟨g, hg, hrest⟩

/-- resolve_chunk on any cumulative registry equals the specification-side
filterMap over all entries. -/
theorem resolve_chunk_eq_cum (ents : List EntryFileRegistry)
    (hcum : Cumulative 0 ents) (s len : Nat) :
    resolve_chunk ents s len = ents.filterMap (resolveSpec s (s + len)) := by
  unfold resolve_chunk
  obtain ⟨g2, hg2⟩ := cumulative_dropWhile _ ents 0 hcum
  rw [resolveLoop_eq_filterMap s (s + len) _ g2 hg2,
    ← dropWhile_filterMap s (s + len)]

/-- resolve_chunk on a freshly built registry equals the specification-side
filterMap over all entries. -/
theorem resolve_chunk_eq (fs : List (String × Nat)) (s len : Nat) :
    resolve_chunk (FileRegistry.new fs) s len =
      (FileRegistry.new fs).filterMap (resolveSpec s (s + len)) :=
  resolve_chunk_eq_cum (FileRegistry.new fs) (newAux_cumulative fs 0) s len

/-- The lengths of the resolved sources sum to the length of the
intersection of the query with the covered range. -/
theorem filterMap_resolveSpec_sum (s e : Nat) :
    ∀ (es : List EntryFileRegistry) (g : Nat), Cumulative g es →
      ((es.filterMap (resolveSpec s e)).map ChunkSource.length).sum =
        min e (g + (es.map EntryFileRegistry.length).sum) - max s g := by
  intro es
  induction es with
  | nil =>
    intro g _
    simp only [List.filterMap_nil, List.map_nil, List.sum_nil]
    omega
  | cons entry rest ih =>
    intro g hc
    obtain ⟨hg, hrest⟩ := hc
    have heq := ih (g + entry.length) hrest
    rw [List.filterMap_cons]
    by_cases hol : max s entry.global_offset <
        min e (entry.global_offset + entry.length)
    · have hsome : resolveSpec s e entry = some ⟨entry.path,
          max s entry.global_offset - entry.global_offset,
          min e (entry.global_offset + entry.length) -
            max s entry.global_offset⟩ := by
        unfold resolveSpec
        rw [if_pos hol]
      rw [hsome]
      simp only [List.map_cons, List.sum_cons, heq]
      omega
    · have hnone : resolveSpec s e entry = none := by
        unfold resolveSpec
        rw [if_neg hol]
      rw [hnone]
      simp only [List.map_cons, List.sum_cons, heq]
      omega

/-- C6: for every registry built from an ordered (path, length) list,
resolve_chunk returns exactly the files whose global ranges overlap the
query, in file order, each source carrying the overlap's local offset within
its file and the overlap's length (stated as equality with the
specification-side filterMap); the returned lengths sum to the queried
length whenever the queried range lies inside the total stream; and every
returned source has positive length, so zero-length files are never
returned. -/
theorem resolve_chunk_correct (fs : List (String × Nat)) (s len : Nat) :
    resolve_chunk (FileRegistry.new fs) s len =
      (FileRegistry.new fs).filterMap (resolveSpec s (s + len)) ∧
    (s + len ≤ ((FileRegistry.new fs).map EntryFileRegistry.length).sum →
      ((resolve_chunk (FileRegistry.new fs) s len).map ChunkSource.length).sum
        = len) ∧
    (∀ c ∈ resolve_chunk (FileRegistry.new fs) s len, 0 < c.length) := by
  refine ⟨resolve_chunk_eq fs s len, ?_, ?_⟩
  · intro hin
    have hcum : Cumulative 0 (FileRegistry.new fs) := newAux_cumulative fs 0
    rw [resolve_chunk_eq fs s len,
      filterMap_resolveSpec_sum s (s + len) _ 0 hcum]
    omega
  · intro c hc
    rw [resolve_chunk_eq fs s len] at hc
    obtain ⟨entry, -, hsome⟩ := List.mem_filterMap.1 hc
    unfold resolveSpec at hsome
    split at hsome
    · next hov =>
      cases hsome
      simpa using Nat.sub_pos_of_lt hov
    · cases hsome

/-- Witness for the C6 theorem at a concrete registry (a 3-byte file, an
empty file, a 5-byte file; query [2, 6)): the queried range lies in the
stream and the returned lengths sum to the queried length. -/
theorem resolve_chunk_correct_witness :
    2 + 4 ≤ ((FileRegistry.new [("a", 3), ("b", 0), ("c", 5)]).map
        EntryFileRegistry.length).sum ∧
    ((resolve_chunk (FileRegistry.new [("a", 3), ("b", 0), ("c", 5)]) 2 4).map
        ChunkSource.length).sum = 4 :=
  ⟨by decide,
   (resolve_chunk_correct [("a", 3), ("b", 0), ("c", 5)] 2 4).2.1 (by decide)⟩

/-- findIdx returns the first index satisfying the predicate. -/
theorem findIdx_eq_first {α : Type} (q : α → Bool) :
    ∀ (l : List α) (t : Nat) (ht : t < l.length),
      q (l.get ⟨t, ht⟩) = true →
      (∀ j (hj : j < l.length), j < t → q (l.get ⟨j, hj⟩) = false) →
      l.findIdx q = t := by
  intro l
  induction l with
  | nil =>
    intro t ht
    exact absurd ht (by simp)
  | cons a l ih =>
    intro t ht hq hpre
    cases t with
    | zero =>
      rw [List.findIdx_cons]
      simp only [List.get] at hq
      rw [hq]
      rfl
    | succ t =>
      have ha : q a = false := hpre 0 (by simp) (by omega)
      rw [List.findIdx_cons, ha]
      simp only [cond_false]
      have ht2 : t < l.length := by
        simp only [List.length_cons] at ht
        omega
      have hq2 : q (l.get ⟨t, ht2⟩) = true := hq
      have hpre2 : ∀ j (hj : j < l.length), j < t → q (l.get ⟨j, hj⟩) = false := by
        intro j hj hjt
        exact hpre (j + 1) (by simp only [List.length_cons]; omega) (by omega)
      rw [ih t ht2 hq2 hpre2]

/-- The cursor scan lands exactly on the first matching index at or after the
cursor. -/
theorem advanceCursor_spec (files : List File) (p : String)
    (cursor t : Nat) (ht : t < files.length)
    (hp : (files.get ⟨t, ht⟩).path = p)
    (hpre : ∀ j (hj : j < files.length), j < t → (files.get ⟨j, hj⟩).path ≠ p)
    (hc : cursor ≤ t) :
    advanceCursor files p cursor = t := by
  unfold advanceCursor
  have hdl : t - cursor < (files.drop cursor).length := by
    rw [List.length_drop]
    omega
  have hfind : (files.drop cursor).findIdx (fun f => f.path = p) = t - cursor := by
    apply findIdx_eq_first
    · have hget : (files.drop cursor).get ⟨t - cursor, hdl⟩ = files.get ⟨t, ht⟩ := by
        have hct : cursor + (t - cursor) = t := by omega
        simp [hct]
      rw [hget]
      simp only [decide_eq_true_eq]
      exact hp
    · intro j hj hjt
      rw [List.length_drop] at hj
      have hcj : cursor + j < files.length := by omega
      have hget : (files.drop cursor).get ⟨j, by rw [List.length_drop]; omega⟩ =
          files.get ⟨cursor + j, hcj⟩ := by
        simp
      rw [hget]
      simp only [decide_eq_false_iff_not]
      exact hpre (cursor + j) hcj (by omega)
  rw [hfind]
  omega

/-- In a cumulative list an earlier entry ends at or before a later entry
starts. -/
theorem cumulative_cross :
    ∀ (es : List EntryFileRegistry) (g : Nat), Cumulative g es →
      ∀ (i j : Nat) (hi : i < j) (hj : j < es.length),
        (es.get ⟨i, lt_trans hi hj⟩).global_offset +
            (es.get ⟨i, lt_trans hi hj⟩).length ≤
          (es.get ⟨j, hj⟩).global_offset := by
  intro es
  induction es with
  | nil => intro g _ i j hi hj; simp at hj
  | cons entry rest ih =>
    intro g hc i j hi hj
    obtain ⟨hg, hrest⟩ := hc
    cases j with
    | zero => omega
    | succ j =>
      have hj2 : j < rest.length := by
        simp only [List.length_cons] at hj
        omega
      cases i with
      | zero =>
        have hmem : rest.get ⟨j, hj2⟩ ∈ rest := List.get_mem _ _ _
        have := cumulative_ge rest (g + entry.length) hrest _ hmem
        simp only [List.get]
        omega
      | succ i =>
        exact ih (g + entry.length) hrest i j (by omega) hj2

/-- Every entry of a cumulative list ends within the covered total. -/
theorem cumulative_end_le_total :
    ∀ (es : List EntryFileRegistry) (g : Nat), Cumulative g es →
      ∀ (k : Nat) (hk : k < es.length),
        (es.get ⟨k, hk⟩).global_offset + (es.get ⟨k, hk⟩).length ≤
          g + (es.map EntryFileRegistry.length).sum := by
  intro es
  induction es with
  | nil => intro g _ k hk; simp at hk
  | cons entry rest ih =>
    intro g hc k hk
    obtain ⟨hg, hrest⟩ := hc
    cases k with
    | zero =>
      simp only [List.get, List.map_cons, List.sum_cons]
      omega
    | succ k =>
      have hk2 : k < rest.length := by
        simp only [List.length_cons] at hk
        omega
      have := ih (g + entry.length) hrest k hk2
      simp only [List.get, List.map_cons, List.sum_cons]
      omega

/-- The registry keeps the paths of its input, in order. -/
theorem newAux_map_path : ∀ (fs : List (String × Nat)) (g : Nat),
    (newAux g fs).map EntryFileRegistry.path = fs.map Prod.fst := by
  intro fs
  induction fs with
  | nil => intro g; rfl
  | cons pl rest ih =>
    intro g
    obtain ⟨p, l⟩ := pl
    simp only [newAux, List.map_cons, ih]

/-- The registry keeps the lengths of its input, in order. -/
theorem newAux_map_length : ∀ (fs : List (String × Nat)) (g : Nat),
    (newAux g fs).map EntryFileRegistry.length = fs.map Prod.snd := by
  intro fs
  induction fs with
  | nil => intro g; rfl
  | cons pl rest ih =>
    intro g
    obtain ⟨p, l⟩ := pl
    simp only [newAux, List.map_cons, ih]

/-- The source loop of backup.rs, fed the resolved sources of one chunk
[s, e) for the registry suffix starting at file index base, succeeds and
produces exactly the chunkRows of that suffix; the final cursor is either
unchanged or rests on an overlapping entry at or after base.  Needs: files
and registry paths agree position by position, paths are distinct, and the
incoming cursor is at or before every entry at or after base that reaches
past s. -/
theorem sourcesToRows_chunkRows (ents : List EntryFileRegistry)
    (files : List File)
    (hpath : files.map File.path = ents.map EntryFileRegistry.path)
    (hnd : (files.map File.path).Nodup) (s e ci : Nat) :
    ∀ (suf : List EntryFileRegistry) (base cursor co : Nat),
      suf = ents.drop base →
      (∀ (k : Nat) (hk : k < ents.length), base ≤ k →
          s < (ents.get ⟨k, hk⟩).global_offset + (ents.get ⟨k, hk⟩).length →
          cursor ≤ k) →
      ∃ cur,
        sourcesToRows files ci cursor co (suf.filterMap (resolveSpec s e)) =
          Except.ok (chunkRows ci s e base co suf, cur) ∧
        (cur = cursor ∨ ∃ (hc : cur < ents.length),
          base ≤ cur ∧ resolveSpec s e (ents.get ⟨cur, hc⟩) ≠ none) := by
  have hflen : files.length = ents.length := by
    have := congrArg List.length hpath
    simpa using this
  intro suf
  induction suf with
  | nil =>
    intro base cursor co hdrop hcur
    exact ⟨cursor, rfl, Or.inl rfl⟩
  | cons entry rest ih =>
    intro base cursor co hdrop hcur
    have hblen : base < ents.length := by
      by_contra hcon
      rw [List.drop_eq_nil_of_le (by omega)] at hdrop
      exact List.cons_ne_nil _ _ hdrop
    have hsplit : ents.drop base = ents.get ⟨base, hblen⟩ :: ents.drop (base + 1) := by
      rw [List.drop_eq_getElem_cons hblen]
      rfl
    rw [hsplit] at hdrop
    obtain ⟨hent, hrest⟩ : entry = ents.get ⟨base, hblen⟩ ∧
        rest = ents.drop (base + 1) := by
      injection hdrop with h1 h2
      exact ⟨h1, h2⟩
    cases hres : resolveSpec s e entry with
    | none =>
      obtain ⟨cur, heqn, hdisj⟩ := ih (base + 1) cursor co hrest
        (fun k hk hbk hsk => hcur k hk (by omega) hsk)
      refine ⟨cur, ?_, ?_⟩
      · rw [List.filterMap_cons, hres]
        simp only [chunkRows, hres]
        exact heqn
      · rcases hdisj with h | ⟨hc, hbc, hne⟩
        · exact Or.inl h
        · exact Or.inr ⟨hc, by omega, hne⟩
    | some src =>
      have hfire : max s entry.global_offset <
          min e (entry.global_offset + entry.length) ∧
          src = ⟨entry.path, max s entry.global_offset - entry.global_offset,
            min e (entry.global_offset + entry.length) -
              max s entry.global_offset⟩ := by
        have hres2 := hres
        unfold resolveSpec at hres2
        split at hres2
        · next hov =>
          cases hres2
          exact ⟨hov, rfl⟩
        · cases hres2
      have hsend : s < entry.global_offset + entry.length := by
        have := hfire.1
        omega
      have hcb : cursor ≤ base := hcur base hblen le_rfl (hent ▸ hsend)
      have hbfl : base < files.length := by omega
      have hfp : (files.get ⟨base, hbfl⟩).path = entry.path := by
        have h1 : (files.map File.path).get ⟨base, by simpa using hbfl⟩ =
            (ents.map EntryFileRegistry.path).get ⟨base, by simpa using hblen⟩ :=
          List.get_of_eq hpath _
        rw [List.get_map, List.get_map] at h1
        rw [h1, ← hent]
      have hpre : ∀ j (hj : j < files.length), j < base →
          (files.get ⟨j, hj⟩).path ≠ entry.path := by
        intro j hj hjb hpath_eq
        have h1 : (files.map File.path).get ⟨j, by simpa using hj⟩ =
            (files.map File.path).get ⟨base, by simpa using hbfl⟩ := by
          rw [List.get_map, List.get_map, hpath_eq, hfp]
        have := (List.Nodup.get_inj_iff hnd).1 h1
        have : j = base := by
          have h2 := congrArg Fin.val this
          simpa using h2
        omega
      have hadv : advanceCursor files src.path cursor = base := by
        apply advanceCursor_spec files src.path cursor base hbfl
        · rw [hfp, hfire.2]
        · intro j hj hjb
          rw [hfire.2]
          exact hpre j hj hjb
        · exact hcb
      obtain ⟨cur, heqr, hdisj⟩ := ih (base + 1) base (co + src.length) hrest
        (fun k hk hbk hsk => by omega)
      refine ⟨cur, ?_, ?_⟩
      · rw [List.filterMap_cons, hres]
        simp only [sourcesToRows, hadv]
        rw [if_pos hbfl, heqr]
        simp only [chunkRows, hres]
      · rcases hdisj with h | ⟨hc, hbc, hne⟩
        · subst h
          exact Or.inr ⟨hblen, le_rfl, by rw [← hent, hres]; simp⟩
        · exact Or.inr ⟨hc, by omega, hne⟩

/-- One chunk moves the cursor invariant from the chunk start to the chunk
end: the final cursor is at or before every entry reaching past the chunk. -/
theorem cursor_inv_step (ents : List EntryFileRegistry)
    (hcum : Cumulative 0 ents) (s e : Nat) (hse : s ≤ e) (cursor cur : Nat)
    (hinv : ∀ (k : Nat) (hk : k < ents.length),
        s < (ents.get ⟨k, hk⟩).global_offset + (ents.get ⟨k, hk⟩).length →
        cursor ≤ k)
    (hdisj : cur = cursor ∨ ∃ (hc : cur < ents.length),
        0 ≤ cur ∧ resolveSpec s e (ents.get ⟨cur, hc⟩) ≠ none) :
    ∀ (k : Nat) (hk : k < ents.length),
      e < (ents.get ⟨k, hk⟩).global_offset + (ents.get ⟨k, hk⟩).length →
      cur ≤ k := by
  intro k hk hke
  rcases hdisj with rfl | ⟨hc, -, hne⟩
  · exact hinv k hk (by omega)
  · have hfire : max s (ents.get ⟨cur, hc⟩).global_offset <
        min e ((ents.get ⟨cur, hc⟩).global_offset + (ents.get ⟨cur, hc⟩).length) := by
      by_contra hcon
      apply hne
      unfold resolveSpec
      rw [if_neg hcon]
    by_contra hcon
    have hkc : k < cur := by omega
    have hcross := cumulative_cross ents 0 hcum k cur hkc hc
    omega

/-- The selected part of chunkRows does not depend on the chunk index nor on
the running chunk offset. -/
theorem chunkRows_map_sel (s e : Nat) :
    ∀ (es : List EntryFileRegistry) (ci ci2 base co co2 : Nat),
      (chunkRows ci s e base co es).map sel =
        (chunkRows ci2 s e base co2 es).map sel := by
  intro es
  induction es with
  | nil => intro ci ci2 base co co2; rfl
  | cons entry rest ih =>
    intro ci ci2 base co co2
    cases hres : resolveSpec s e entry with
    | none =>
      simp only [chunkRows, hres]
      exact ih ci ci2 (base + 1) co co2
    | some src =>
      simp only [chunkRows, hres, List.map_cons, sel]
      rw [ih ci ci2 (base + 1) (co + src.length) (co2 + src.length)]

/-- The chunk loop over the emissions of a cumulative registry succeeds and
appends exactly the selected rows of the chunk-length sequence; the cursor
invariant moves to the end of the consumed stream range. -/
theorem chunkLoop_rows (blake3c : List Nat → Nat)
    (putKey : List (String × List Nat) → List Nat → String)
    (ents : List EntryFileRegistry) (files : List File)
    (hpath : files.map File.path = ents.map EntryFileRegistry.path)
    (hnd : (files.map File.path).Nodup) (hcum : Cumulative 0 ents)
    (stream : List Nat) :
    ∀ (lens : List Nat) (pos : Nat) (st : ChunkLoopState),
      (∀ (k : Nat) (hk : k < ents.length),
          pos < (ents.get ⟨k, hk⟩).global_offset + (ents.get ⟨k, hk⟩).length →
          st.cursor ≤ k) →
      ∃ st', chunkLoop blake3c putKey files st
            (mkEmissions ents stream pos lens) = Except.ok st' ∧
        st'.file_chunks.map sel = st.file_chunks.map sel ++ rowsSel ents pos lens ∧
        (∀ (k : Nat) (hk : k < ents.length),
            pos + lens.sum <
              (ents.get ⟨k, hk⟩).global_offset + (ents.get ⟨k, hk⟩).length →
            st'.cursor ≤ k) := by
  intro lens
  induction lens with
  | nil =>
    intro pos st hinv
    refine ⟨st, rfl, by simp [rowsSel], ?_⟩
    intro k hk hke
    exact hinv k hk (by simpa using hke)
  | cons l rest ih =>
    intro pos st hinv
    obtain ⟨cur, hrows, hdisj⟩ := sourcesToRows_chunkRows ents files hpath hnd
      pos (pos + l)
      (dedupStep putKey st.cache st.chunks st.puts
        (blake3c ((stream.drop pos).take l)) ((stream.drop pos).take l)).1
      ents 0 st.cursor 0 (List.drop_zero ents).symm
      (fun k hk _ hsk => hinv k hk hsk)
    have hsrc : resolve_chunk ents pos l = ents.filterMap (resolveSpec pos (pos + l)) :=
      resolve_chunk_eq_cum ents hcum pos l
    have hstep : processChunk blake3c putKey files st ((stream.drop pos).take l)
        (resolve_chunk ents pos l) = Except.ok
          { chunks := (dedupStep putKey st.cache st.chunks st.puts
                (blake3c ((stream.drop pos).take l)) ((stream.drop pos).take l)).2.1,
            file_chunks := st.file_chunks ++
              chunkRows (dedupStep putKey st.cache st.chunks st.puts
                (blake3c ((stream.drop pos).take l)) ((stream.drop pos).take l)).1
                pos (pos + l) 0 0 ents,
            cursor := cur,
            cache := (dedupStep putKey st.cache st.chunks st.puts
                (blake3c ((stream.drop pos).take l)) ((stream.drop pos).take l)).2.2.1,
            puts := (dedupStep putKey st.cache st.chunks st.puts
                (blake3c ((stream.drop pos).take l)) ((stream.drop pos).take l)).2.2.2 } := by
      unfold processChunk
      dsimp only
      rw [hsrc, hrows]
    have hinv2 := cursor_inv_step ents hcum pos (pos + l) (by omega) st.cursor cur
      (fun k hk hsk => hinv k hk hsk)
      (by
        rcases hdisj with h | ⟨hc, -, hne⟩
        · exact Or.inl h
        · exact Or.inr ⟨hc, Nat.zero_le _, hne⟩)
    obtain ⟨st', hloop, hsel, hpost⟩ := ih (pos + l)
      { chunks := (dedupStep putKey st.cache st.chunks st.puts
            (blake3c ((stream.drop pos).take l)) ((stream.drop pos).take l)).2.1,
        file_chunks := st.file_chunks ++
          chunkRows (dedupStep putKey st.cache st.chunks st.puts
            (blake3c ((stream.drop pos).take l)) ((stream.drop pos).take l)).1
            pos (pos + l) 0 0 ents,
        cursor := cur,
        cache := (dedupStep putKey st.cache st.chunks st.puts
            (blake3c ((stream.drop pos).take l)) ((stream.drop pos).take l)).2.2.1,
        puts := (dedupStep putKey st.cache st.chunks st.puts
            (blake3c ((stream.drop pos).take l)) ((stream.drop pos).take l)).2.2.2 }
      hinv2
    refine ⟨st', ?_, ?_, ?_⟩
    · simp only [mkEmissions, chunkLoop, hstep]
      exact hloop
    · rw [hsel]
      simp only [List.map_append, rowsSel, List.append_assoc]
      congr 2
      exact chunkRows_map_sel pos (pos + l) ents _ 0 0 _ 0
    · intro k hk hke
      apply hpost k hk
      simp only [List.sum_cons] at hke ⊢
      omega


/-- Rows of chunkRows carry file indices at or after base. -/
theorem chunkRows_index_ge (s e ci : Nat) :
    ∀ (es : List EntryFileRegistry) (base co : Nat) (r : FileChunk),
      r ∈ chunkRows ci s e base co es → base ≤ r.file_index := by
  intro es
  induction es with
  | nil => intro base co r hr; simp [chunkRows] at hr
  | cons entry rest ih =>
    intro base co r hr
    cases hres : resolveSpec s e entry with
    | none =>
      rw [chunkRows, hres] at hr
      exact le_trans (by omega) (ih (base + 1) co r hr)
    | some src =>
      rw [chunkRows, hres] at hr
      rcases List.mem_cons.1 hr with rfl | hr
      · exact le_rfl
      · exact le_trans (by omega) (ih (base + 1) (co + src.length) r hr)

/-- The rows of one chunk for file j: the single clipped overlap of the
chunk with the file at index j, if any. -/
theorem chunkRows_filter (s e ci : Nat) :
    ∀ (es : List EntryFileRegistry) (j base co : Nat), base ≤ j →
      (((chunkRows ci s e base co es).map sel).filter
          (fun x => x.1 = j)).map Prod.snd =
        (Option.map (fun src => (src.offset, src.length))
          (es[j - base]?.bind (resolveSpec s e))).toList := by
  intro es
  induction es with
  | nil =>
    intro j base co hbj
    simp [chunkRows]
  | cons entry rest ih =>
    intro j base co hbj
    by_cases hjb : j = base
    · subst hjb
      rw [Nat.sub_self]
      have hrestnil : ((chunkRows ci s e (j + 1)
          (co + ((resolveSpec s e entry).elim 0 ChunkSource.length)) rest).map
            sel).filter (fun x => x.1 = j) = [] := by
        rw [List.filter_eq_nil_iff]
        intro x hx
        obtain ⟨r, hr, rfl⟩ := List.mem_map.1 hx
        have := chunkRows_index_ge s e ci rest (j + 1) _ r hr
        simp only [sel, decide_eq_true_eq]
        omega
      cases hres : resolveSpec s e entry with
      | some src =>
        rw [hres] at hrestnil
        simp only [Option.elim_some] at hrestnil
        rw [chunkRows, hres]
        simp only [List.map_cons, List.filter_cons, sel]
        rw [if_pos (by simp), hrestnil]
        simp [hres]
      | none =>
        rw [hres] at hrestnil
        simp only [Option.elim_none, Nat.add_zero] at hrestnil
        rw [chunkRows, hres]
        dsimp only
        rw [hrestnil]
        simp [hres]
    · have hidx : j - base = (j - (base + 1)) + 1 := by omega
      rw [hidx, List.getElem?_cons_succ]
      cases hres : resolveSpec s e entry with
      | some src =>
        rw [chunkRows, hres]
        simp only [List.map_cons, List.filter_cons, sel]
        rw [if_neg (by simp only [decide_eq_true_eq]; omega)]
        exact ih j (base + 1) (co + src.length) (by omega)
      | none =>
        rw [chunkRows, hres]
        exact ih j (base + 1) co (by omega)

/-- The relation between the implementation-side resolveSpec and the
arithmetic clip of the chunk range against the file range. -/
theorem resolveSpec_clip (s e : Nat) (entry : EntryFileRegistry) :
    Option.map (fun src => (src.offset, src.length)) (resolveSpec s e entry) =
      clip s e entry.global_offset entry.length := by
  unfold resolveSpec clip
  by_cases hov : max s entry.global_offset <
      min e (entry.global_offset + entry.length)
  · rw [if_pos hov, if_pos hov]
    rfl
  · rw [if_neg hov, if_neg hov]
    rfl

/-- The per-file rows of the whole chunk sequence: per chunk, the clipped
overlap with the file at index j. -/
theorem rowsSel_filter (ents : List EntryFileRegistry) (j : Nat)
    (hj : j < ents.length) :
    ∀ (lens : List Nat) (pos : Nat),
      ((rowsSel ents pos lens).filter (fun x => x.1 = j)).map Prod.snd =
        clipRows (ents.get ⟨j, hj⟩).global_offset (ents.get ⟨j, hj⟩).length
          pos lens := by
  intro lens
  induction lens with
  | nil => intro pos; rfl
  | cons l rest ih =>
    intro pos
    rw [rowsSel, List.filter_append, List.map_append, clipRows]
    have h1 := chunkRows_filter pos (pos + l) 0 ents j 0 0 (Nat.zero_le j)
    rw [Nat.sub_zero] at h1
    rw [h1, List.getElem?_eq_getElem hj]
    simp only [Option.some_bind, List.get_eq_getElem]
    rw [resolveSpec_clip, ih (pos + l)]
    simp only [List.get_eq_getElem]

/-- covers composes over list append. -/
theorem covers_append :
    ∀ (xs : List (Nat × Nat)) (p q r : Nat) (ys : List (Nat × Nat)),
      covers p xs q → covers q ys r → covers p (xs ++ ys) r := by
  intro xs
  induction xs with
  | nil =>
    intro p q r ys h1 h2
    cases h1
    exact h2
  | cons ol rest ih =>
    intro p q r ys h1 h2
    obtain ⟨o, l⟩ := ol
    obtain ⟨ho, hl, hrest⟩ := h1
    exact ⟨ho, hl, ih _ _ _ _ hrest h2⟩

/-- covers is monotone. -/
theorem covers_le : ∀ (rows : List (Nat × Nat)) (p q : Nat),
    covers p rows q → p ≤ q := by
  intro rows
  induction rows with
  | nil => intro p q h; cases h; exact le_rfl
  | cons ol rest ih =>
    intro p q h
    obtain ⟨o, l⟩ := ol
    obtain ⟨ho, hl, hrest⟩ := h
    have := ih _ _ hrest
    omega

/-- A tiling of an empty range is empty. -/
theorem covers_self_nil : ∀ (rows : List (Nat × Nat)) (p : Nat),
    covers p rows p → rows = [] := by
  intro rows
  cases rows with
  | nil => intro p h; rfl
  | cons ol rest =>
    intro p h
    obtain ⟨o, l⟩ := ol
    obtain ⟨ho, hl, hrest⟩ := h
    have := covers_le rest _ _ hrest
    omega

/-- The clipped overlaps of a chunk sequence tile the file range as far as
the stream has been consumed. -/
theorem covers_clipRows (g L : Nat) :
    ∀ (lens : List Nat) (pos : Nat),
      covers (min L (pos - g)) (clipRows g L pos lens)
        (min L (pos + lens.sum - g)) := by
  intro lens
  induction lens with
  | nil =>
    intro pos
    simp only [clipRows, List.sum_nil, Nat.add_zero]
    rfl
  | cons l rest ih =>
    intro pos
    rw [clipRows]
    have hrec := ih (pos + l)
    rw [List.sum_cons]
    cases hclip : clip pos (pos + l) g L with
    | none =>
      have heq : min L (pos - g) = min L (pos + l - g) := by
        unfold clip at hclip
        split at hclip
        · cases hclip
        · next hno => omega
      rw [Option.toList_none, List.nil_append, heq]
      have : pos + (l + rest.sum) - g = pos + l + rest.sum - g := by omega
      rw [this]
      exact hrec
    | some olp =>
      obtain ⟨o, len2⟩ := olp
      have hcond : max pos g < min (pos + l) (g + L) ∧
          o = max pos g - g ∧ len2 = min (pos + l) (g + L) - max pos g := by
        unfold clip at hclip
        split at hclip
        · next hov =>
          cases hclip
          exact ⟨hov, rfl, rfl⟩
        · cases hclip
      obtain ⟨hov, ho, hlen2⟩ := hcond
      rw [Option.toList_some, List.cons_append]
      refine ⟨by omega, by omega, ?_⟩
      have h1 : min L (pos - g) + len2 = min L (pos + l - g) := by omega
      have h2 : pos + (l + rest.sum) - g = pos + l + rest.sum - g := by omega
      rw [h1, h2]
      exact hrec


/-- C5: partition law.  In every snapshot produced by backup (over a walk
with distinct file paths, with a chunker satisfying the FastCDC contract
that chunk lengths tile the stream), the file_chunks rows with
file_index = j, in stored order, tile the byte range [0, size of file j)
contiguously with positive lengths - no gaps, no overlaps - and an empty
file has zero rows. -/
theorem backup_partition_law (blake3c : List Nat → Nat)
    (putKey : List (String × List Nat) → List Nat → String)
    (serialize : Snapshot → List Nat)
    (cdc : ChunkerConfig → List Nat → List Nat) (config : ChunkerConfig)
    (walk : List (Except String WalkEntry)) (base : Option Snapshot)
    (snap : Snapshot) (log : List (String × List Nat)) (key : String)
    (ws : WalkState)
    (hw : walkFold emptyWalkState (walk.filterMap Except.toOption) =
      Except.ok ws)
    (hnd : (ws.contents.map Prod.fst).Nodup)
    (hcdc : (cdc config ((ws.contents.map Prod.snd).flatten)).sum =
      ((ws.contents.map Prod.snd).flatten).length)
    (h : backup blake3c putKey serialize cdc config walk base =
      Except.ok (snap, log, key)) :
    ∀ (j : Nat) (hj : j < ws.contents.length),
      covers 0 (((snap.file_chunks.map sel).filter
          (fun x => x.1 = j)).map Prod.snd)
        ((ws.contents.get ⟨j, hj⟩).2.length) ∧
      ((ws.contents.get ⟨j, hj⟩).2.length = 0 →
        (snap.file_chunks.map sel).filter (fun x => x.1 = j) = []) := by
  have hwinv := walkFold_inv _ hw (by simp [WalkInv, emptyWalkState])
  have hcf : ws.contents.map Prod.fst = ws.files.map File.path := hwinv.2.2
  unfold backup at h
  split at h
  · exact absurd h (by simp)
  · next ws2 hw2 =>
    have hws : ws = ws2 := by
      rw [hw] at hw2
      exact Except.ok.inj hw2
    subst hws
    dsimp only at h
    split at h
    · exact absurd h (by simp)
    · next st heq =>
      simp only [Except.ok.injEq, Prod.mk.injEq] at h
      obtain ⟨hsnap, -, -⟩ := h
      subst hsnap
      have hentp : (FileRegistry.new
            (ws.contents.map fun c => (c.1, c.2.length))).map
            EntryFileRegistry.path = ws.contents.map Prod.fst := by
        show (newAux 0 _).map _ = _
        rw [newAux_map_path, List.map_map]
        rfl
      have hentl : (FileRegistry.new
            (ws.contents.map fun c => (c.1, c.2.length))).map
            EntryFileRegistry.length =
          ws.contents.map (fun c => c.2.length) := by
        show (newAux 0 _).map _ = _
        rw [newAux_map_length, List.map_map]
        rfl
      have hpath2 : ws.files.map File.path = (FileRegistry.new
          (ws.contents.map fun c => (c.1, c.2.length))).map
            EntryFileRegistry.path := by
        rw [hentp, hcf]
      have hnd2 : (ws.files.map File.path).Nodup := by
        rw [← hcf]
        exact hnd
      obtain ⟨st', hloop, hsel, -⟩ := chunkLoop_rows blake3c putKey
        (FileRegistry.new (ws.contents.map fun c => (c.1, c.2.length)))
        ws.files hpath2 hnd2 (newAux_cumulative _ 0)
        ((ws.contents.map Prod.snd).flatten)
        (cdc config ((ws.contents.map Prod.snd).flatten)) 0
        ⟨[], [], 0, Option.map (fun s => buildCache s.chunks) base, []⟩
        (fun k hk _ => Nat.zero_le k)
      have hst : st' = st := by
        rw [hloop] at heq
        exact Except.ok.inj heq
      subst hst
      simp only [List.nil_append] at hsel
      have hlen : (FileRegistry.new
          (ws.contents.map fun c => (c.1, c.2.length))).length =
          ws.contents.length := by
        have := congrArg List.length hentp
        simpa using this
      intro j hj
      have hjl : j < (FileRegistry.new
          (ws.contents.map fun c => (c.1, c.2.length))).length := by omega
      have hLfile : ((FileRegistry.new
            (ws.contents.map fun c => (c.1, c.2.length))).get
              ⟨j, hjl⟩).length = (ws.contents.get ⟨j, hj⟩).2.length := by
        have h1 := List.get_of_eq hentl ⟨j, by simpa using hjl⟩
        rw [List.get_map, List.get_map] at h1
        exact h1
      have hfr : (((st'.file_chunks.map sel).filter
            (fun x => x.1 = j)).map Prod.snd) =
          clipRows ((FileRegistry.new
              (ws.contents.map fun c => (c.1, c.2.length))).get
                ⟨j, hjl⟩).global_offset
            ((FileRegistry.new
              (ws.contents.map fun c => (c.1, c.2.length))).get
                ⟨j, hjl⟩).length
            0 (cdc config ((ws.contents.map Prod.snd).flatten)) := by
        rw [hsel]
        exact rowsSel_filter _ j hjl _ 0
      have hcum2 : Cumulative 0 (FileRegistry.new
          (ws.contents.map fun c => (c.1, c.2.length))) :=
        newAux_cumulative _ 0
      have hend := cumulative_end_le_total
        (FileRegistry.new (ws.contents.map fun c => (c.1, c.2.length))) 0
        hcum2 j hjl
      have htot : ((FileRegistry.new
          (ws.contents.map fun c => (c.1, c.2.length))).map
            EntryFileRegistry.length).sum =
          ((ws.contents.map Prod.snd).flatten).length := by
        rw [hentl, List.length_flatten, List.map_map]
        rfl
      have hcov := covers_clipRows
        ((FileRegistry.new
            (ws.contents.map fun c => (c.1, c.2.length))).get
              ⟨j, hjl⟩).global_offset
        ((FileRegistry.new
            (ws.contents.map fun c => (c.1, c.2.length))).get
              ⟨j, hjl⟩).length
        (cdc config ((ws.contents.map Prod.snd).flatten)) 0
      rw [show (0 : Nat) - ((FileRegistry.new
            (ws.contents.map fun c => (c.1, c.2.length))).get
              ⟨j, hjl⟩).global_offset = 0 by omega] at hcov
      rw [Nat.min_zero] at hcov
      have hLmin : min ((FileRegistry.new
            (ws.contents.map fun c => (c.1, c.2.length))).get
              ⟨j, hjl⟩).length
          (0 + (cdc config ((ws.contents.map Prod.snd).flatten)).sum -
            ((FileRegistry.new
              (ws.contents.map fun c => (c.1, c.2.length))).get
                ⟨j, hjl⟩).global_offset) =
          ((FileRegistry.new
              (ws.contents.map fun c => (c.1, c.2.length))).get
                ⟨j, hjl⟩).length := by
        rw [hcdc, ← htot]
        omega
      rw [hLmin] at hcov
      constructor
      · rw [show (⟨ws.files, st'.chunks, st'.file_chunks,
            ws.file_symlink⟩ : Snapshot).file_chunks = st'.file_chunks from rfl]
        rw [hfr, ← hLfile]
        exact hcov
      · intro hsize
        rw [show (⟨ws.files, st'.chunks, st'.file_chunks,
            ws.file_symlink⟩ : Snapshot).file_chunks = st'.file_chunks from rfl]
        have hz : ((FileRegistry.new
            (ws.contents.map fun c => (c.1, c.2.length))).get
              ⟨j, hjl⟩).length = 0 := by
          rw [hLfile]
          exact hsize
        rw [hz] at hcov
        have hnil := covers_self_nil _ 0 hcov
        have hmap : (((st'.file_chunks.map sel).filter
            (fun x => x.1 = j)).map Prod.snd) = [] := by
          rw [hfr, hz]
          exact hnil
        exact List.map_eq_nil_iff.1 hmap

/-- Witness for the C5 theorem: the two one-byte-file tree; the rows for
file 0 tile [0, 1). -/
theorem backup_partition_law_witness :
    covers 0 [(0, 1)] 1 ∧ (1 = 0 → False) := by
  have h := backup_partition_law hashConst keyCount serNil cdcOne cfg0 walkAB
    none
    ⟨[⟨"a"⟩, ⟨"b"⟩], [⟨0, "k0"⟩], [⟨0, 0, 0, 0, 1⟩, ⟨0, 1, 1, 0, 1⟩], []⟩
    [("k0", [65, 66]), ("k1", [9])] "k1"
    ⟨[⟨"a"⟩, ⟨"b"⟩], [], [], [("a", [65]), ("b", [66])]⟩
    rfl (by decide) (by decide) rfl 0 (by decide)
  exact ⟨h.1, by omega⟩


/-- The dedup step is insensitive to the key allocator and the put log:
the chunk index, the chunk hash sequence and the cache depend only on the
cache and the hash sequence. -/
theorem dedupStep_det
    (pk1 pk2 : List (String × List Nat) → List Nat → String)
    (cache : Option (List (Nat × ChunkStatus))) (chunks1 chunks2 : List Chunk)
    (puts1 puts2 : List (String × List Nat)) (hash : Nat) (buffer : List Nat)
    (hh : chunks1.map Chunk.hash = chunks2.map Chunk.hash) :
    (dedupStep pk1 cache chunks1 puts1 hash buffer).1 =
      (dedupStep pk2 cache chunks2 puts2 hash buffer).1 ∧
    (dedupStep pk1 cache chunks1 puts1 hash buffer).2.1.map Chunk.hash =
      (dedupStep pk2 cache chunks2 puts2 hash buffer).2.1.map Chunk.hash ∧
    (dedupStep pk1 cache chunks1 puts1 hash buffer).2.2.1 =
      (dedupStep pk2 cache chunks2 puts2 hash buffer).2.2.1 := by
  have hlen : chunks1.length = chunks2.length := by
    have := congrArg List.length hh
    simpa using this
  cases cache with
  | none =>
    refine ⟨hlen, ?_, rfl⟩
    simp [dedupStep, hh]
  | some m =>
    cases hl : cacheLookup m hash with
    | none =>
      refine ⟨?_, ?_, ?_⟩ <;> simp [dedupStep, hl, hh, hlen]
    | some status =>
      cases status with
      | available c =>
        refine ⟨?_, ?_, ?_⟩ <;> simp [dedupStep, hl, hh, hlen]
      | reuse i =>
        refine ⟨?_, ?_, ?_⟩ <;> simp [dedupStep, hl, hh, hlen]

/-- The chunk loop is deterministic up to blob-store key allocation: two
runs from states agreeing on rows, cursor, cache and hash sequence, under
different key allocators, agree on those components (and fail alike). -/
theorem chunkLoop_det (blake3c : List Nat → Nat)
    (pk1 pk2 : List (String × List Nat) → List Nat → String)
    (files : List File) :
    ∀ (es : List (Except String (List Nat × List ChunkSource)))
      (st1 st2 : ChunkLoopState),
      st1.file_chunks = st2.file_chunks → st1.cursor = st2.cursor →
      st1.cache = st2.cache →
      st1.chunks.map Chunk.hash = st2.chunks.map Chunk.hash →
      Except.map loopDet (chunkLoop blake3c pk1 files st1 es) =
        Except.map loopDet (chunkLoop blake3c pk2 files st2 es) := by
  intro es
  induction es with
  | nil =>
    intro st1 st2 h1 h2 h3 h4
    simp only [chunkLoop, Except.map, loopDet, h1, h2, h3, h4]
  | cons item rest ih =>
    intro st1 st2 h1 h2 h3 h4
    cases item with
    | error m => simp [chunkLoop]
    | ok pair =>
      obtain ⟨buffer, sources⟩ := pair
      simp only [chunkLoop]
      unfold processChunk
      dsimp only
      rw [h1, h2, h3]
      obtain ⟨hd1, hd2, hd3⟩ := dedupStep_det pk1 pk2 st2.cache st1.chunks
        st2.chunks st1.puts st2.puts (blake3c buffer) buffer h4
      rw [hd1]
      cases hrows : sourcesToRows files
          (dedupStep pk2 st2.cache st2.chunks st2.puts (blake3c buffer) buffer).1
          st2.cursor 0 sources with
      | error m => simp
      | ok rc =>
        obtain ⟨rows, cur⟩ := rc
        dsimp only
        exact ih _ _ rfl rfl hd3 hd2

/-- C7: determinism.  For a fixed configuration, two backups of the same
walked tree (same entries, same optional base snapshot) with different
blob-store key allocation - covering two runs against different storage
states - produce the same files, the same chunk hash sequence, the same
file_chunks rows and the same link records; and they fail alike. -/
theorem backup_deterministic (blake3c : List Nat → Nat)
    (pk1 pk2 : List (String × List Nat) → List Nat → String)
    (serialize : Snapshot → List Nat)
    (cdc : ChunkerConfig → List Nat → List Nat) (config : ChunkerConfig)
    (walk : List (Except String WalkEntry)) (base : Option Snapshot) :
    Except.map backupDet (backup blake3c pk1 serialize cdc config walk base) =
      Except.map backupDet (backup blake3c pk2 serialize cdc config walk base) := by
  unfold backup
  cases hw : walkFold emptyWalkState (walk.filterMap Except.toOption) with
  | error m => simp
  | ok ws =>
    dsimp only
    have hdet := chunkLoop_det blake3c pk1 pk2 ws.files
      (mkEmissions (FileRegistry.new (ws.contents.map fun c => (c.1, c.2.length)))
        ((ws.contents.map Prod.snd).flatten) 0
        (cdc config ((ws.contents.map Prod.snd).flatten)))
      ⟨[], [], 0, Option.map (fun s => buildCache s.chunks) base, []⟩
      ⟨[], [], 0, Option.map (fun s => buildCache s.chunks) base, []⟩
      rfl rfl rfl rfl
    cases hr1 : chunkLoop blake3c pk1 ws.files
        ⟨[], [], 0, Option.map (fun s => buildCache s.chunks) base, []⟩
        (mkEmissions (FileRegistry.new (ws.contents.map fun c => (c.1, c.2.length)))
          ((ws.contents.map Prod.snd).flatten) 0
          (cdc config ((ws.contents.map Prod.snd).flatten))) with
    | error m1 =>
      rw [hr1] at hdet
      cases hr2 : chunkLoop blake3c pk2 ws.files
          ⟨[], [], 0, Option.map (fun s => buildCache s.chunks) base, []⟩
          (mkEmissions (FileRegistry.new (ws.contents.map fun c => (c.1, c.2.length)))
            ((ws.contents.map Prod.snd).flatten) 0
            (cdc config ((ws.contents.map Prod.snd).flatten))) with
      | error m2 =>
        rw [hr2] at hdet
        simp only [Except.map] at hdet
        cases hdet
        simp
      | ok st2 =>
        rw [hr2] at hdet
        simp [Except.map] at hdet
    | ok st1 =>
      rw [hr1] at hdet
      cases hr2 : chunkLoop blake3c pk2 ws.files
          ⟨[], [], 0, Option.map (fun s => buildCache s.chunks) base, []⟩
          (mkEmissions (FileRegistry.new (ws.contents.map fun c => (c.1, c.2.length)))
            ((ws.contents.map Prod.snd).flatten) 0
            (cdc config ((ws.contents.map Prod.snd).flatten))) with
      | error m2 =>
        rw [hr2] at hdet
        simp [Except.map] at hdet
      | ok st2 =>
        rw [hr2] at hdet
        simp only [Except.map, Except.ok.injEq, loopDet, Prod.mk.injEq] at hdet
        obtain ⟨hfc, hcur, hcache, hhash⟩ := hdet
        simp [Except.map, backupDet, hfc, hhash]


/-- Looking up a key absent from the first part of a cache skips it. -/
theorem cacheLookup_append_right (m1 m2 : List (Nat × ChunkStatus)) (h : Nat)
    (hne : ∀ kv ∈ m1, kv.1 ≠ h) :
    cacheLookup (m1 ++ m2) h = cacheLookup m2 h := by
  induction m1 with
  | nil => rfl
  | cons kv rest ih =>
    unfold cacheLookup at ih ⊢
    rw [List.cons_append, List.find?_cons]
    have hd : (decide (kv.1 = h)) = false := by
      simp [hne kv (by simp)]
    rw [hd]
    exact ih fun kv2 hkv2 => hne kv2 (by simp [hkv2])

/-- Inserting a key absent from the first part of a cache passes it
through. -/
theorem cacheInsert_append_right (m1 m2 : List (Nat × ChunkStatus)) (h : Nat)
    (s : ChunkStatus) (hne : ∀ kv ∈ m1, kv.1 ≠ h) :
    cacheInsert h s (m1 ++ m2) = m1 ++ cacheInsert h s m2 := by
  induction m1 with
  | nil => rfl
  | cons kv rest ih =>
    rw [List.cons_append, cacheInsert, if_neg (hne kv (by simp)),
      ih fun kv2 hkv2 => hne kv2 (by simp [hkv2]), List.cons_append]

/-- Inserting a fresh key appends it. -/
theorem cacheInsert_not_mem (m : List (Nat × ChunkStatus)) (h : Nat)
    (s : ChunkStatus) (hne : ∀ kv ∈ m, kv.1 ≠ h) :
    cacheInsert h s m = m ++ [(h, s)] := by
  have := cacheInsert_append_right m [] h s hne
  rw [List.append_nil] at this
  rw [this]
  rfl

/-- Keys of the reused part of the cache are hashes of the reused chunks. -/
theorem reuseCache_keys : ∀ (C : List Chunk) (off : Nat)
    (kv : Nat × ChunkStatus), kv ∈ reuseCache off C → kv.1 ∈ C.map Chunk.hash := by
  intro C
  induction C with
  | nil => intro off kv hkv; simp [reuseCache] at hkv
  | cons c rest ih =>
    intro off kv hkv
    rw [reuseCache] at hkv
    rcases List.mem_cons.1 hkv with rfl | hkv
    · simp
    · simp only [List.map_cons, List.mem_cons]
      exact Or.inr (ih (off + 1) kv hkv)

/-- reuseCache distributes over append, shifting the index. -/
theorem reuseCache_append : ∀ (l1 l2 : List Chunk) (off : Nat),
    reuseCache off (l1 ++ l2) =
      reuseCache off l1 ++ reuseCache (off + l1.length) l2 := by
  intro l1
  induction l1 with
  | nil => intro l2 off; simp [reuseCache]
  | cons c rest ih =>
    intro l2 off
    have harith : off + (c :: rest).length = off + 1 + rest.length := by
      simp only [List.length_cons]
      omega
    rw [harith, List.cons_append]
    rw [show reuseCache off (c :: (rest ++ l2)) =
      (c.hash, ChunkStatus.reuse off) :: reuseCache (off + 1) (rest ++ l2) from rfl]
    rw [show reuseCache off (c :: rest) =
      (c.hash, ChunkStatus.reuse off) :: reuseCache (off + 1) rest from rfl]
    rw [ih l2 (off + 1), List.cons_append]

/-- Building the dedup cache from hash-distinct base chunks marks every
entry Available, in base order. -/
theorem buildCache_eq_availCache (C : List Chunk)
    (hnd : (C.map Chunk.hash).Nodup) : buildCache C = availCache C := by
  have haux : ∀ (D : List Chunk) (acc : List (Nat × ChunkStatus)),
      (∀ kv ∈ acc, kv.1 ∉ D.map Chunk.hash) → (D.map Chunk.hash).Nodup →
      D.foldl (fun m c => cacheInsert c.hash (.available c) m) acc =
        acc ++ availCache D := by
    intro D
    induction D with
    | nil => intro acc _ _; simp [availCache]
    | cons c rest ih =>
      intro acc hdisj hnd2
      simp only [List.map_cons, List.nodup_cons] at hnd2
      rw [List.foldl_cons]
      rw [cacheInsert_not_mem acc c.hash (ChunkStatus.available c)
        (fun kv hkv => fun hcon => hdisj kv hkv (by simp [hcon]))]
      rw [ih (acc ++ [(c.hash, ChunkStatus.available c)])
        (by
          intro kv hkv
          rcases List.mem_append.1 hkv with hkv | hkv
          · intro hcon
            exact hdisj kv hkv (by simp [hcon])
          · rw [List.mem_singleton] at hkv
            subst hkv
            exact hnd2.1)
        hnd2.2]
      simp [availCache]
  have := haux C [] (by simp) hnd
  simpa [buildCache] using this

/-- The chunk list only grows along the chunk loop. -/
theorem dedupStep_chunks_prefix
    (pk : List (String × List Nat) → List Nat → String)
    (cache : Option (List (Nat × ChunkStatus))) (chunks : List Chunk)
    (puts : List (String × List Nat)) (hash : Nat) (buffer : List Nat) :
    ∃ s, (dedupStep pk cache chunks puts hash buffer).2.1 = chunks ++ s := by
  cases cache with
  | none => exact ⟨[⟨hash, pk puts buffer⟩], rfl⟩
  | some m =>
    cases hl : cacheLookup m hash with
    | none => exact ⟨[⟨hash, pk puts buffer⟩], by simp [dedupStep, hl]⟩
    | some status =>
      cases status with
      | available c => exact ⟨[c], by simp [dedupStep, hl]⟩
      | reuse i => exact ⟨[], by simp [dedupStep, hl]⟩

/-- The chunk list of the loop state extends the starting chunk list. -/
theorem chunkLoop_chunks_prefix (blake3c : List Nat → Nat)
    (pk : List (String × List Nat) → List Nat → String) (files : List File) :
    ∀ (es : List (Except String (List Nat × List ChunkSource)))
      (st st' : ChunkLoopState),
      chunkLoop blake3c pk files st es = Except.ok st' →
      ∃ s, st'.chunks = st.chunks ++ s := by
  intro es
  induction es with
  | nil =>
    intro st st' h
    simp only [chunkLoop, Except.ok.injEq] at h
    subst h
    exact ⟨[], by simp⟩
  | cons item rest ih =>
    intro st st' h
    simp only [chunkLoop] at h
    split at h
    · exact absurd h (by simp)
    · split at h
      · exact absurd h (by simp)
      · next st2 heq =>
        obtain ⟨rows, cur, hrows, rfl⟩ := processChunk_ok heq
        obtain ⟨s1, hs1⟩ := dedupStep_chunks_prefix pk st.cache st.chunks
          st.puts (blake3c _) _
        obtain ⟨s2, hs2⟩ := ih _ _ h
        exact ⟨s1 ++ s2, by simp only at hs2; rw [hs2, hs1, List.append_assoc]⟩


/-- Re-running the chunk loop with the dedup cache built from a no-cache
base run over the same emissions uploads nothing: every chunk hash hits an
Available slot (or a Reuse slot for duplicates, excluded here by the
hash-distinctness hypothesis), the new chunks equal the base chunks entry
for entry, and the rows and cursor evolve identically. -/
theorem chunkLoop_rebase (blake3c : List Nat → Nat)
    (pk1 pk2 : List (String × List Nat) → List Nat → String)
    (files : List File) :
    ∀ (es : List (Except String (List Nat × List ChunkSource)))
      (st1 st2 st1' : ChunkLoopState),
      st1.cache = none →
      chunkLoop blake3c pk1 files st1 es = Except.ok st1' →
      st2.chunks = st1.chunks → st2.file_chunks = st1.file_chunks →
      st2.cursor = st1.cursor → st2.puts = [] →
      st2.cache = some (reuseCache 0 st1.chunks ++
        availCache (st1'.chunks.drop st1.chunks.length)) →
      (st1'.chunks.map Chunk.hash).Nodup →
      chunkLoop blake3c pk2 files st2 es = Except.ok
        { chunks := st1'.chunks, file_chunks := st1'.file_chunks,
          cursor := st1'.cursor,
          cache := some (reuseCache 0 st1'.chunks), puts := [] } := by
  intro es
  induction es with
  | nil =>
    intro st1 st2 st1' hc1 hrun1 hch hfc hcur hputs hcache hnd
    simp only [chunkLoop, Except.ok.injEq] at hrun1
    subst hrun1
    simp only [chunkLoop, Except.ok.injEq]
    have heta : st2 = ⟨st2.chunks, st2.file_chunks, st2.cursor, st2.cache,
        st2.puts⟩ := rfl
    rw [heta, hch, hfc, hcur, hputs, hcache]
    simp [availCache]
  | cons item rest ih =>
    intro st1 st2 st1' hc1 hrun1 hch hfc hcur hputs hcache hnd
    cases item with
    | error m => simp [chunkLoop] at hrun1
    | ok pair =>
      obtain ⟨buffer, sources⟩ := pair
      simp only [chunkLoop] at hrun1 ⊢
      unfold processChunk at hrun1 ⊢
      dsimp only at hrun1 ⊢
      rw [hc1] at hrun1
      have hded1 : dedupStep pk1 none st1.chunks st1.puts (blake3c buffer)
          buffer = (st1.chunks.length,
            st1.chunks ++ [⟨blake3c buffer, pk1 st1.puts buffer⟩], none,
            st1.puts ++ [(pk1 st1.puts buffer, buffer)]) := rfl
      rw [hded1] at hrun1
      dsimp only at hrun1
      cases hrows : sourcesToRows files st1.chunks.length st1.cursor 0
          sources with
      | error m =>
        rw [hrows] at hrun1
        simp at hrun1
      | ok rc =>
        obtain ⟨rows, cur⟩ := rc
        rw [hrows] at hrun1
        dsimp only at hrun1
        obtain ⟨suffix, hsuf⟩ := chunkLoop_chunks_prefix blake3c pk1 files
          rest _ st1' hrun1
        dsimp only at hsuf
        rw [List.append_assoc] at hsuf
        have hdropc : st1'.chunks.drop st1.chunks.length =
            ⟨blake3c buffer, pk1 st1.puts buffer⟩ :: suffix := by
          rw [hsuf]
          rw [List.drop_left]
          rfl
        have hnotmem : (blake3c buffer) ∉ st1.chunks.map Chunk.hash := by
          have hnd2 := hnd
          rw [hsuf] at hnd2
          rw [List.map_append, List.nodup_append] at hnd2
          intro hcon
          exact hnd2.2.2 hcon (by simp)
        have hlook : cacheLookup (reuseCache 0 st1.chunks ++
            availCache (⟨blake3c buffer, pk1 st1.puts buffer⟩ :: suffix))
            (blake3c buffer) =
            some (ChunkStatus.available ⟨blake3c buffer, pk1 st1.puts buffer⟩) := by
          rw [cacheLookup_append_right _ _ _ (by
            intro kv hkv hcon
            exact hnotmem (hcon ▸ reuseCache_keys st1.chunks 0 kv hkv))]
          rw [availCache]
          unfold cacheLookup
          rw [List.find?_cons]
          simp
        have hins : cacheInsert (blake3c buffer)
            (ChunkStatus.reuse st1.chunks.length)
            (reuseCache 0 st1.chunks ++
              availCache (⟨blake3c buffer, pk1 st1.puts buffer⟩ :: suffix)) =
            reuseCache 0 (st1.chunks ++
              [⟨blake3c buffer, pk1 st1.puts buffer⟩]) ++ availCache suffix := by
          rw [cacheInsert_append_right _ _ _ _ (by
            intro kv hkv hcon
            exact hnotmem (hcon ▸ reuseCache_keys st1.chunks 0 kv hkv))]
          rw [availCache, cacheInsert, if_pos rfl]
          rw [reuseCache_append]
          simp [reuseCache]
        have hded2 : dedupStep pk2 st2.cache st2.chunks st2.puts
            (blake3c buffer) buffer = (st1.chunks.length,
              st1.chunks ++ [⟨blake3c buffer, pk1 st1.puts buffer⟩],
              some (reuseCache 0 (st1.chunks ++
                  [⟨blake3c buffer, pk1 st1.puts buffer⟩]) ++
                availCache suffix),
              st2.puts) := by
          rw [hcache, hdropc, hch]
          unfold dedupStep
          dsimp only
          rw [hlook]
          dsimp only
          rw [hins]
        rw [hded2]
        dsimp only
        rw [hcur, hrows]
        dsimp only
        rw [hfc, hputs]
        refine ih
          { chunks := st1.chunks ++ [⟨blake3c buffer, pk1 st1.puts buffer⟩],
            file_chunks := st1.file_chunks ++ rows, cursor := cur,
            cache := none,
            puts := st1.puts ++ [(pk1 st1.puts buffer, buffer)] }
          _ st1' rfl hrun1 rfl rfl rfl rfl ?_ hnd
        dsimp only
        congr 2
        simp [← List.append_assoc]
        rw [hsuf]
        simp


/-- C4 (amended): re-backing up the unchanged tree on top of its own
snapshot uploads no chunk bytes.  Provided the base snapshot has pairwise
distinct chunk hashes (no duplicate chunk content in the base run), the
incremental backup returns the very same snapshot - so every
chunks[i].location equals the base location - and its put log consists of
exactly one put, the newly serialized snapshot. -/
theorem backup_rebase_no_reupload (blake3c : List Nat → Nat)
    (pk1 pk2 : List (String × List Nat) → List Nat → String)
    (serialize : Snapshot → List Nat)
    (cdc : ChunkerConfig → List Nat → List Nat) (config : ChunkerConfig)
    (walk : List (Except String WalkEntry)) (snap : Snapshot)
    (log : List (String × List Nat)) (key : String)
    (h1 : backup blake3c pk1 serialize cdc config walk none =
      Except.ok (snap, log, key))
    (hnd : (snap.chunks.map Chunk.hash).Nodup) :
    backup blake3c pk2 serialize cdc config walk (some snap) =
      Except.ok (snap, [(pk2 [] (serialize snap), serialize snap)],
        pk2 [] (serialize snap)) := by
  unfold backup at h1 ⊢
  split at h1
  · exact absurd h1 (by simp)
  · next ws hw =>
    dsimp only at h1 ⊢
    split at h1
    · exact absurd h1 (by simp)
    · next st1 heq =>
      simp only [Except.ok.injEq, Prod.mk.injEq] at h1
      obtain ⟨hsnap, -, -⟩ := h1
      subst hsnap
      have hnd2 : (st1.chunks.map Chunk.hash).Nodup := hnd
      have hreb := chunkLoop_rebase blake3c pk1 pk2 ws.files
        (mkEmissions
          (FileRegistry.new (ws.contents.map fun c => (c.1, c.2.length)))
          ((ws.contents.map Prod.snd).flatten) 0
          (cdc config ((ws.contents.map Prod.snd).flatten)))
        ⟨[], [], 0, Option.map (fun s : Snapshot => buildCache s.chunks)
          none, []⟩
        ⟨[], [], 0, Option.map (fun s : Snapshot => buildCache s.chunks)
          (some (⟨ws.files, st1.chunks, st1.file_chunks,
            ws.file_symlink⟩ : Snapshot)), []⟩
        st1 rfl heq rfl rfl rfl rfl
        (by
          show some (buildCache st1.chunks) = _
          rw [buildCache_eq_availCache st1.chunks hnd2]
          simp [reuseCache])
        hnd2
      rw [hreb]
      simp


/-- Witness for the amended C4 theorem at a concrete run: re-backing up the
two-file tree on its own snapshot returns the same snapshot and puts only
the serialized snapshot. -/
theorem backup_rebase_no_reupload_witness :
    backup hashSum keyCount serNil cdcOne cfg0 walkAB
        (some ⟨[⟨"a"⟩, ⟨"b"⟩], [⟨131, "k0"⟩],
          [⟨0, 0, 0, 0, 1⟩, ⟨0, 1, 1, 0, 1⟩], []⟩) =
      Except.ok (⟨[⟨"a"⟩, ⟨"b"⟩], [⟨131, "k0"⟩],
          [⟨0, 0, 0, 0, 1⟩, ⟨0, 1, 1, 0, 1⟩], []⟩,
        [("k0", [9])], "k0") :=
  backup_rebase_no_reupload hashSum keyCount keyCount serNil cdcOne cfg0
    walkAB
    ⟨[⟨"a"⟩, ⟨"b"⟩], [⟨131, "k0"⟩], [⟨0, 0, 0, 0, 1⟩, ⟨0, 1, 1, 0, 1⟩], []⟩
    [("k0", [65, 66]), ("k1", [9])] "k1" rfl (by decide)

end Lepatch
